import Mathlib

/-!
Verification of the RNS ring-arithmetic and key-switching core of the
lattigo repository against its natural-language specification.

The Go source is shallowly embedded: `uint64` values become `Nat` with
explicit `% 2 ^ 64` wherever the machine arithmetic can wrap,
`bits.Mul64 x y` becomes the pair `(x * y / 2 ^ 64, x * y % 2 ^ 64)`,
and `bits.Add64 x y 0` becomes `((x + y) % 2 ^ 64, (x + y) / 2 ^ 64)`.
Functions keep their source names.  Components of the repository whose
implementation is not part of the provided sources (only their tests or
callers are) are modelled from the specification; their doc comments
start with "Modelled from the spec:".
-/

/-! ## Modular arithmetic primitives (ring package, Montgomery and Barrett reduction) -/

/-- MForm returns a*2^64 mod q, the Montgomery form of a mod q with radix 2^64.
Embedding of `func MForm(a, q uint64, u []uint64) (r uint64)`; the parameter
`u` is the pair (u[0], u[1]) of Barrett constants from `BRedParams`. -/
def MForm (a q : Nat) (u : Nat × Nat) : Nat :=
  let mhi := a * u.2 / 2 ^ 64
  let r := (2 ^ 64 - (a * u.1 + mhi) % 2 ^ 64) * q % 2 ^ 64
  if q ≤ r then r - q else r

/-- MRedParamsAux iterates the squaring loop of `func MRedParams`. -/
def MRedParamsAux : Nat → Nat × Nat → Nat × Nat
  | 0, p => p
  | i + 1, (qInv, x) => MRedParamsAux i (qInv * x % 2 ^ 64, x * x % 2 ^ 64)

/-- MRedParams computes the constant qInv = q^(-1) mod 2^64 required by MRed,
embedding the 63-iteration loop of `func MRedParams(q uint64)`. -/
def MRedParams (q : Nat) : Nat :=
  (MRedParamsAux 63 (1, q)).1

/-- MRed computes x * y * (1/2^64) mod q (Montgomery reduction); at least one
input must be in Montgomery form.  Embedding of
`func MRed(x, y, q, qInv uint64) (r uint64)`. -/
def MRed (x y q qInv : Nat) : Nat :=
  let ahi := x * y / 2 ^ 64
  let alo := x * y % 2 ^ 64
  let R := alo * qInv % 2 ^ 64
  let H := R * q / 2 ^ 64
  let r := (ahi + q + (2 ^ 64 - H)) % 2 ^ 64
  if q ≤ r then r - q else r

/-- MRedConstant is identical to MRed but omits the final conditional
subtraction, returning a value in [0, 2q-1]. -/
def MRedConstant (x y q qInv : Nat) : Nat :=
  let ahi := x * y / 2 ^ 64
  let alo := x * y % 2 ^ 64
  let R := alo * qInv % 2 ^ 64
  let H := R * q / 2 ^ 64
  (ahi + q + (2 ^ 64 - H)) % 2 ^ 64

/-- BRedParams computes the Barrett constants: the two 64-bit words of
floor(2^128 / q), high word first.  Embedding of `func BRedParams`. -/
def BRedParams (q : Nat) : Nat × Nat :=
  (2 ^ 128 / q / 2 ^ 64, 2 ^ 128 / q % 2 ^ 64)

/-- BRedAdd reduces a 64-bit integer by q using the high Barrett constant.
Embedding of `func BRedAdd(x, q uint64, u []uint64) (r uint64)`. -/
def BRedAdd (x q : Nat) (u : Nat × Nat) : Nat :=
  let s0 := x * u.1 / 2 ^ 64
  let r := (x + (2 ^ 64 - s0 * q % 2 ^ 64)) % 2 ^ 64
  if q ≤ r then r - q else r

/-- BRed computes x*y mod q for arbitrary uint64 x, y via Barrett reduction.
Embedding of `func BRed(x, y, q uint64, u []uint64) (r uint64)`; the carry
chains of `bits.Add64` are written out with `/ 2 ^ 64` and `% 2 ^ 64`. -/
def BRed (x y q : Nat) (u : Nat × Nat) : Nat :=
  let ahi := x * y / 2 ^ 64
  let alo := x * y % 2 ^ 64
  let lhi := alo * u.2 / 2 ^ 64
  let mhi := alo * u.1 / 2 ^ 64
  let mlo := alo * u.1 % 2 ^ 64
  let s0 := (mlo + lhi) % 2 ^ 64
  let carry := (mlo + lhi) / 2 ^ 64
  let s1 := (mhi + carry) % 2 ^ 64
  let mhi2 := ahi * u.2 / 2 ^ 64
  let mlo2 := ahi * u.2 % 2 ^ 64
  let carry2 := (mlo2 + s0) / 2 ^ 64
  let lhi2 := (mhi2 + carry2) % 2 ^ 64
  let s := (ahi * u.1 % 2 ^ 64 + s1 + lhi2) % 2 ^ 64
  let r := (alo + (2 ^ 64 - s * q % 2 ^ 64)) % 2 ^ 64
  if q ≤ r then r - q else r

/-- CRed returns a mod q for a in [0, 2q-1].  Embedding of `func CRed`. -/
def CRed (a q : Nat) : Nat :=
  if q ≤ a then a - q else a

/-! ## Correctness of the Barrett and Montgomery primitives -/

theorem BRedParams_mul_le (q : Nat) :
    2 ^ 128 / q * q ≤ 2 ^ 128 :=
  Nat.div_mul_le_self _ _

theorem BRedParams_mul_gt (q : Nat) (hq : 0 < q) :
    2 ^ 128 < 2 ^ 128 / q * q + q := by
  have := Nat.lt_mul_div_succ (2 ^ 128) hq
  calc 2 ^ 128 < q * (2 ^ 128 / q + 1) := this
    _ = 2 ^ 128 / q * q + q := by ring

/-- The high Barrett word is the quotient of 2^128 by q * 2^64. -/
theorem BRedParams_fst_eq (q : Nat) :
    (BRedParams q).1 = 2 ^ 128 / (q * 2 ^ 64) := by
  show 2 ^ 128 / q / 2 ^ 64 = 2 ^ 128 / (q * 2 ^ 64)
  rw [Nat.div_div_eq_div_mul]

/-- BRedAdd correctly reduces any 64-bit value into [0, q). -/
theorem BRedAdd_correct (x q : Nat) (hq : 1 < q) (hq63 : q ≤ 2 ^ 63)
    (hx : x < 2 ^ 64) :
    BRedAdd x q (BRedParams q) = x % q := by
  have hq0 : 0 < q := by omega
  have hD : 0 < q * 2 ^ 64 := by positivity
  simp only [BRedAdd]
  set u0 := (BRedParams q).1 with hu0def
  set s0 := x * u0 / 2 ^ 64 with hs0def
  have hu0 : u0 = 2 ^ 128 / (q * 2 ^ 64) := BRedParams_fst_eq q
  -- upper estimate: s0 * q ≤ x
  have hu0q : u0 * q ≤ 2 ^ 64 := by
    have h1 : u0 * (q * 2 ^ 64) ≤ 2 ^ 128 := by
      rw [hu0]; exact Nat.div_mul_le_self _ _
    have h2 : u0 * q * 2 ^ 64 ≤ 2 ^ 64 * 2 ^ 64 := by
      calc u0 * q * 2 ^ 64 = u0 * (q * 2 ^ 64) := by ring
        _ ≤ 2 ^ 128 := h1
        _ = 2 ^ 64 * 2 ^ 64 := by norm_num
    exact Nat.le_of_mul_le_mul_right h2 (by norm_num)
  have hle : s0 * q ≤ x := by
    have h1 : s0 * q * 2 ^ 64 ≤ x * u0 * q := by
      have := Nat.div_mul_le_self (x * u0) (2 ^ 64)
      calc s0 * q * 2 ^ 64 = x * u0 / 2 ^ 64 * 2 ^ 64 * q := by rw [hs0def]; ring
        _ ≤ x * u0 * q := Nat.mul_le_mul_right q this
    have h2 : x * u0 * q ≤ x * 2 ^ 64 := by
      calc x * u0 * q = x * (u0 * q) := by ring
        _ ≤ x * 2 ^ 64 := Nat.mul_le_mul_left x hu0q
    have h3 : s0 * q * 2 ^ 64 ≤ x * 2 ^ 64 := le_trans h1 h2
    exact Nat.le_of_mul_le_mul_right h3 (by norm_num)
  -- lower estimate: x < s0 * q + 2 * q
  have hlt : x < s0 * q + 2 * q := by
    rcases Nat.eq_zero_or_pos x with hx0 | hx0
    · omega
    have h1 : x * u0 < (s0 + 1) * 2 ^ 64 := by
      have := Nat.lt_mul_div_succ (x * u0) (b := 2 ^ 64) (by norm_num)
      calc x * u0 < 2 ^ 64 * (x * u0 / 2 ^ 64 + 1) := this
        _ = (s0 + 1) * 2 ^ 64 := by rw [hs0def]; ring
    have h2 : 2 ^ 128 < (u0 + 1) * (q * 2 ^ 64) := by
      have := Nat.lt_mul_div_succ (2 ^ 128) hD
      rw [hu0]
      calc 2 ^ 128 < q * 2 ^ 64 * (2 ^ 128 / (q * 2 ^ 64) + 1) := this
        _ = (2 ^ 128 / (q * 2 ^ 64) + 1) * (q * 2 ^ 64) := by ring
    have h3 : x * 2 ^ 128 < (s0 * q + 2 * q) * 2 ^ 128 := by
      calc x * 2 ^ 128 < x * ((u0 + 1) * (q * 2 ^ 64)) :=
            mul_lt_mul_of_pos_left h2 hx0
        _ = x * u0 * q * 2 ^ 64 + x * (q * 2 ^ 64) := by ring
        _ ≤ x * u0 * q * 2 ^ 64 + 2 ^ 64 * (q * 2 ^ 64) := by
            have : x * (q * 2 ^ 64) ≤ 2 ^ 64 * (q * 2 ^ 64) :=
              Nat.mul_le_mul_right _ (le_of_lt hx)
            omega
        _ ≤ (s0 + 1) * 2 ^ 64 * q * 2 ^ 64 + 2 ^ 64 * (q * 2 ^ 64) := by
            have : x * u0 * q * 2 ^ 64 ≤ (s0 + 1) * 2 ^ 64 * q * 2 ^ 64 :=
              Nat.mul_le_mul_right _ (Nat.mul_le_mul_right _ (le_of_lt h1))
            omega
        _ = (s0 * q + 2 * q) * 2 ^ 128 := by ring
    exact lt_of_mul_lt_mul_right h3 (Nat.zero_le _)
  have h2q : 2 * q ≤ 2 ^ 64 := by
    calc 2 * q ≤ 2 * 2 ^ 63 := by omega
      _ = 2 ^ 64 := by norm_num
  -- the wrapped subtraction equals the true remainder x - s0 * q
  have hr : (x + (2 ^ 64 - s0 * q % 2 ^ 64)) % 2 ^ 64 = x - s0 * q := by omega
  rw [hr]
  have hxq : x % q = (x - s0 * q) % q := by
    conv_lhs => rw [show x = x - s0 * q + s0 * q by omega]
    rw [Nat.add_mul_mod_self_right]
  rcases le_or_lt q (x - s0 * q) with h | h
  · rw [if_pos h, hxq, Nat.mod_eq_sub_mod h, Nat.mod_eq_of_lt (by omega)]
  · rw [if_neg (by omega), hxq, Nat.mod_eq_of_lt h]

/-- MForm correctly computes the Montgomery form a * 2^64 mod q. -/
theorem MForm_correct (a q : Nat) (hq : 1 < q) (hq63 : q ≤ 2 ^ 63)
    (ha : a < q) :
    MForm a q (BRedParams q) = a * 2 ^ 64 % q := by
  have hq0 : 0 < q := by omega
  have hqW : q ≤ 2 ^ 64 := by omega
  have haW : a < 2 ^ 64 := by omega
  simp only [MForm]
  set u0 := (BRedParams q).1 with hu0def
  set u1 := (BRedParams q).2 with hu1def
  set M := 2 ^ 128 / q with hMdef
  have hu01 : M = u0 * 2 ^ 64 + u1 := by
    show M = M / 2 ^ 64 * 2 ^ 64 + M % 2 ^ 64
    omega
  have hMq : M * q ≤ 2 ^ 128 := BRedParams_mul_le q
  have hMq2 : 2 ^ 128 < M * q + q := BRedParams_mul_gt q hq0
  set mhi := a * u1 / 2 ^ 64 with hmhidef
  set approx := a * u0 + mhi with happroxdef
  -- approx is the quotient estimate floor(a * M / 2^64)
  have happrox : approx = a * M / 2 ^ 64 := by
    rw [happroxdef, hu01]
    have : a * (u0 * 2 ^ 64 + u1) = 2 ^ 64 * (a * u0) + a * u1 := by ring
    rw [this, Nat.mul_add_div (by norm_num)]
  -- approx fits in a word
  have happroxW : approx < 2 ^ 64 := by
    have h1 : approx * 2 ^ 64 ≤ a * M := by
      rw [happrox]; exact Nat.div_mul_le_self _ _
    have h2 : approx * 2 ^ 64 * q ≤ a * 2 ^ 128 := by
      calc approx * 2 ^ 64 * q ≤ a * M * q := Nat.mul_le_mul_right q h1
        _ = a * (M * q) := by ring
        _ ≤ a * 2 ^ 128 := Nat.mul_le_mul_left a hMq
    have h3 : approx * 2 ^ 64 * q < q * 2 ^ 64 * 2 ^ 64 := by
      calc approx * 2 ^ 64 * q ≤ a * 2 ^ 128 := h2
        _ < q * 2 ^ 128 := by
            have : a * 2 ^ 128 < q * 2 ^ 128 :=
              Nat.mul_lt_mul_of_lt_of_le ha (le_refl _) (by norm_num)
            exact this
        _ = q * 2 ^ 64 * 2 ^ 64 := by ring
    have h4 : approx * 2 ^ 64 * q = approx * q * 2 ^ 64 := by ring
    have h5 : q * 2 ^ 64 * 2 ^ 64 = q * 2 ^ 64 * 2 ^ 64 := rfl
    have h6 : approx * q < q * 2 ^ 64 :=
      lt_of_mul_lt_mul_right (by calc approx * q * 2 ^ 64 = approx * 2 ^ 64 * q := by ring
        _ < q * 2 ^ 64 * 2 ^ 64 := h3) (Nat.zero_le _)
    have h7 : q * approx < q * 2 ^ 64 := by
      calc q * approx = approx * q := by ring
        _ < q * 2 ^ 64 := h6
    exact lt_of_mul_lt_mul_left h7 (Nat.zero_le _)
  -- upper estimate: approx * q ≤ a * 2^64
  have hle : approx * q ≤ a * 2 ^ 64 := by
    have h1 : approx * q * 2 ^ 64 ≤ a * M * q := by
      have := Nat.div_mul_le_self (a * M) (2 ^ 64)
      calc approx * q * 2 ^ 64 = a * M / 2 ^ 64 * 2 ^ 64 * q := by rw [happrox]; ring
        _ ≤ a * M * q := Nat.mul_le_mul_right q this
    have h2 : a * M * q ≤ a * 2 ^ 64 * 2 ^ 64 := by
      calc a * M * q = a * (M * q) := by ring
        _ ≤ a * 2 ^ 128 := Nat.mul_le_mul_left a hMq
        _ = a * 2 ^ 64 * 2 ^ 64 := by ring
    exact Nat.le_of_mul_le_mul_right (le_trans h1 h2) (by norm_num)
  -- lower estimate: a * 2^64 < approx * q + 2 * q
  have hlt : a * 2 ^ 64 < approx * q + 2 * q := by
    rcases Nat.eq_zero_or_pos a with ha0 | ha0
    · subst ha0; simpa using by omega
    have h1 : a * M < (approx + 1) * 2 ^ 64 := by
      have := Nat.lt_mul_div_succ (a * M) (b := 2 ^ 64) (by norm_num)
      calc a * M < 2 ^ 64 * (a * M / 2 ^ 64 + 1) := this
        _ = (approx + 1) * 2 ^ 64 := by rw [happrox]; ring
    have h2 : a * 2 ^ 128 < (approx * q + 2 * q) * 2 ^ 64 := by
      calc a * 2 ^ 128 = a * 2 ^ 128 := rfl
        _ < a * (M * q + q) := mul_lt_mul_of_pos_left hMq2 ha0
        _ = a * M * q + a * q := by ring
        _ < (approx + 1) * 2 ^ 64 * q + a * q := by
            have : a * M * q < (approx + 1) * 2 ^ 64 * q :=
              Nat.mul_lt_mul_of_lt_of_le h1 (le_refl q) hq0
            omega
        _ ≤ (approx + 1) * 2 ^ 64 * q + 2 ^ 64 * q := by
            have : a * q ≤ 2 ^ 64 * q := Nat.mul_le_mul_right q (by omega)
            omega
        _ = (approx * q + 2 * q) * 2 ^ 64 := by ring
    have h3 : a * 2 ^ 64 * 2 ^ 64 < (approx * q + 2 * q) * 2 ^ 64 := by
      calc a * 2 ^ 64 * 2 ^ 64 = a * 2 ^ 128 := by ring
        _ < (approx * q + 2 * q) * 2 ^ 64 := h2
    exact lt_of_mul_lt_mul_right h3 (Nat.zero_le _)
  have h2q : 2 * q ≤ 2 ^ 64 := by omega
  -- the wrapped negated product equals the true remainder a * 2^64 - approx * q
  have hkey : (2 ^ 64 - approx % 2 ^ 64) * q = (q - a) * 2 ^ 64 + (a * 2 ^ 64 - approx * q) := by
    rw [Nat.mod_eq_of_lt happroxW]
    zify [le_of_lt happroxW, le_of_lt ha, hle]
    ring
  have hr : (2 ^ 64 - approx % 2 ^ 64) * q % 2 ^ 64 = a * 2 ^ 64 - approx * q := by
    rw [hkey]
    have hv : a * 2 ^ 64 - approx * q < 2 ^ 64 := by omega
    omega
  rw [hr]
  have hxq : a * 2 ^ 64 % q = (a * 2 ^ 64 - approx * q) % q := by
    conv_lhs => rw [show a * 2 ^ 64 = a * 2 ^ 64 - approx * q + approx * q by omega]
    rw [Nat.add_mul_mod_self_right]
  rcases le_or_lt q (a * 2 ^ 64 - approx * q) with h | h
  · rw [if_pos h, hxq, Nat.mod_eq_sub_mod h, Nat.mod_eq_of_lt (by omega)]
  · rw [if_neg (by omega), hxq, Nat.mod_eq_of_lt h]

/-- The squaring loop maintains powers of the initial value modulo 2^64. -/
theorem MRedParamsAux_spec (i : Nat) : ∀ a b : Nat, a < 2 ^ 64 → b < 2 ^ 64 →
    MRedParamsAux i (a, b) = (a * b ^ (2 ^ i - 1) % 2 ^ 64, b ^ 2 ^ i % 2 ^ 64) := by
  induction i with
  | zero =>
      intro a b ha hb
      simp [MRedParamsAux, Nat.mod_eq_of_lt ha, Nat.mod_eq_of_lt hb]
      omega
  | succ i ih =>
      intro a b ha hb
      show MRedParamsAux i (a * b % 2 ^ 64, b * b % 2 ^ 64) = _
      rw [ih _ _ (Nat.mod_lt _ (by norm_num)) (Nat.mod_lt _ (by norm_num))]
      have hexp1 : 2 ^ (i + 1) - 1 = 1 + 2 * (2 ^ i - 1) := by
        have : 1 ≤ 2 ^ i := Nat.one_le_two_pow
        rw [pow_succ]; omega
      have hexp2 : 2 ^ (i + 1) = 2 * 2 ^ i := by rw [pow_succ]; ring
      refine Prod.ext ?_ ?_ <;> simp only []
      · rw [hexp1, pow_add, pow_one, pow_mul]
        conv_rhs => rw [show a * (b * (b ^ 2) ^ (2 ^ i - 1)) = a * b * (b * b) ^ (2 ^ i - 1) by
          rw [pow_two]; ring]
        rw [Nat.mul_mod (a * b) ((b * b) ^ (2 ^ i - 1)), Nat.pow_mod, Nat.mul_mod_mod]
      · rw [hexp2, pow_mul]
        conv_rhs => rw [show (b ^ 2) ^ 2 ^ i = (b * b) ^ 2 ^ i by rw [pow_two]]
        rw [← Nat.pow_mod]

/-- Squares of odd numbers are 1 modulo 8. -/
theorem odd_sq_mod_eight (q : Nat) (hodd : q % 2 = 1) : q ^ 2 % 8 = 1 := by
  obtain ⟨m, hm⟩ : ∃ m, q = 2 * m + 1 := ⟨q / 2, by omega⟩
  obtain ⟨c, hc⟩ : ∃ c, m * (m + 1) = 2 * c := (Nat.even_mul_succ_self m).exists_two_nsmul _
  have : q ^ 2 = 8 * c + 1 := by
    rw [hm, pow_two]
    calc (2 * m + 1) * (2 * m + 1) = 4 * (m * (m + 1)) + 1 := by ring
      _ = 4 * (2 * c) + 1 := by rw [hc]
      _ = 8 * c + 1 := by ring
  omega

/-- Any odd number raised to the power 2^k is 1 modulo 2^(k+2), k ≥ 1. -/
theorem odd_pow_two_pow (q : Nat) (hodd : q % 2 = 1) :
    ∀ k, 1 ≤ k → q ^ 2 ^ k % 2 ^ (k + 2) = 1 := by
  intro k
  induction k with
  | zero => omega
  | succ k ih =>
      intro _
      rcases Nat.eq_zero_or_pos k with hk0 | hk0
      · subst hk0
        simpa using odd_sq_mod_eight q hodd
      have hprev := ih hk0
      obtain ⟨c, hc⟩ : ∃ c, q ^ 2 ^ k = 2 ^ (k + 2) * c + 1 :=
        ⟨q ^ 2 ^ k / 2 ^ (k + 2), by
          conv_lhs => rw [← Nat.div_add_mod (q ^ 2 ^ k) (2 ^ (k + 2))]
          rw [hprev, Nat.mul_comm]⟩
      have hsq : q ^ 2 ^ (k + 1) = (q ^ 2 ^ k) ^ 2 := by
        rw [← pow_mul, pow_succ]
      have hval : q ^ 2 ^ (k + 1) = 2 ^ (k + 3) * (2 ^ (k + 1) * c ^ 2 + c) + 1 := by
        rw [hsq, hc, pow_two]
        have h1 : 2 ^ (k + 2) * 2 ^ (k + 2) = 2 ^ (k + 3) * 2 ^ (k + 1) := by
          rw [← pow_add, ← pow_add]
          congr 1
          omega
        calc (2 ^ (k + 2) * c + 1) * (2 ^ (k + 2) * c + 1)
            = 2 ^ (k + 2) * 2 ^ (k + 2) * c ^ 2 + 2 * 2 ^ (k + 2) * c + 1 := by ring
          _ = 2 ^ (k + 3) * 2 ^ (k + 1) * c ^ 2 + 2 ^ (k + 3) * c + 1 := by
              rw [h1]
              congr 2
              rw [← pow_succ']
          _ = 2 ^ (k + 3) * (2 ^ (k + 1) * c ^ 2 + c) + 1 := by ring
      rw [hval]
      have h2le : 2 ≤ 2 ^ (k + 3) := by
        calc 2 = 2 ^ 1 := (pow_one 2).symm
          _ ≤ 2 ^ (k + 3) := Nat.pow_le_pow_right (by norm_num) (by omega)
      have hexp : k + 1 + 2 = k + 3 := by omega
      rw [hexp, Nat.mul_add_mod, Nat.mod_eq_of_lt (by omega)]

/-- MRedParams computes the inverse of an odd modulus q modulo 2^64. -/
theorem MRedParams_correct (q : Nat) (hodd : q % 2 = 1) (hq : q < 2 ^ 64) :
    q * MRedParams q % 2 ^ 64 = 1 := by
  have h1 : MRedParams q = q ^ (2 ^ 63 - 1) % 2 ^ 64 := by
    unfold MRedParams
    rw [MRedParamsAux_spec 63 1 q (by norm_num) hq, one_mul]
  have hpow : q * q ^ (2 ^ 63 - 1) = q ^ 2 ^ 63 := by
    have hexp : (2 : Nat) ^ 63 = 1 + (2 ^ 63 - 1) := by omega
    conv_rhs => rw [hexp]
    rw [pow_add, pow_one]
  have h2 : q * MRedParams q % 2 ^ 64 = q ^ 2 ^ 63 % 2 ^ 64 := by
    rw [h1, Nat.mul_mod_mod, hpow]
  rw [h2]
  have h3 : q ^ 2 ^ 62 % 2 ^ 64 = 1 := odd_pow_two_pow q hodd 62 (by norm_num)
  have hexp2 : (2 : Nat) ^ 62 * 2 = 2 ^ 63 := by norm_num
  have h4 : q ^ 2 ^ 63 = (q ^ 2 ^ 62) ^ 2 := by
    rw [← pow_mul, hexp2]
  rw [h4, Nat.pow_mod, h3]
  norm_num

/-- MRedConstant returns a value in (0, 2q) congruent to x*y / 2^64 modulo q,
whenever x*y < 2^64 * q and qInv is the inverse of q modulo 2^64. -/
theorem MRedConstant_spec (x y q qInv : Nat) (hq0 : 0 < q) (h2q : 2 * q ≤ 2 ^ 64)
    (hqi : q * qInv % 2 ^ 64 = 1) (hxy : x * y < 2 ^ 64 * q) :
    0 < MRedConstant x y q qInv ∧ MRedConstant x y q qInv < 2 * q ∧
      MRedConstant x y q qInv * 2 ^ 64 % q = x * y % q := by
  simp only [MRedConstant]
  set T := x * y with hTdef
  set alo := T % 2 ^ 64 with halodef
  set ahi := T / 2 ^ 64 with hahidef
  set R := alo * qInv % 2 ^ 64 with hRdef
  set H := R * q / 2 ^ 64 with hHdef
  -- R * q is congruent to alo modulo 2^64
  have hRq : R * q % 2 ^ 64 = alo := by
    have h1 : R * q % 2 ^ 64 = alo * (q * qInv) % 2 ^ 64 := by
      rw [hRdef, Nat.mod_mul_mod]
      congr 1
      ring
    rw [h1, Nat.mul_mod, hqi, Nat.mul_one, Nat.mod_mod, halodef, Nat.mod_mod]
  have hRqsplit : R * q = H * 2 ^ 64 + alo := by
    conv_lhs => rw [← Nat.div_add_mod (R * q) (2 ^ 64)]
    rw [hRq, hHdef]
    ring
  -- both quotient words are below q
  have hH : H < q := by
    have h1 : R * q ≤ (2 ^ 64 - 1) * q := by
      have : R ≤ 2 ^ 64 - 1 := by
        have := Nat.mod_lt (alo * qInv) (y := 2 ^ 64) (by norm_num)
        omega
      exact Nat.mul_le_mul_right q this
    have h2 : H * 2 ^ 64 ≤ (2 ^ 64 - 1) * q := by omega
    have h3 : H * 2 ^ 64 < 2 ^ 64 * q := by
      calc H * 2 ^ 64 ≤ (2 ^ 64 - 1) * q := h2
        _ < 2 ^ 64 * q := by
            have : (2 ^ 64 - 1) * q < 2 ^ 64 * q :=
              Nat.mul_lt_mul_of_lt_of_le (by norm_num) (le_refl q) hq0
            exact this
    have h4 : 2 ^ 64 * H < 2 ^ 64 * q := by
      calc 2 ^ 64 * H = H * 2 ^ 64 := by ring
        _ < 2 ^ 64 * q := h3
    exact lt_of_mul_lt_mul_left h4 (Nat.zero_le _)
  have hahi : ahi < q := by
    have h1 : ahi * 2 ^ 64 ≤ T := by
      rw [hahidef]
      exact Nat.div_mul_le_self _ _
    have h2 : ahi * 2 ^ 64 < 2 ^ 64 * q := lt_of_le_of_lt h1 hxy
    have h3 : 2 ^ 64 * ahi < 2 ^ 64 * q := by
      calc 2 ^ 64 * ahi = ahi * 2 ^ 64 := by ring
        _ < 2 ^ 64 * q := h2
    exact lt_of_mul_lt_mul_left h3 (Nat.zero_le _)
  -- the wrapped value is exactly ahi + q - H
  have hval : (ahi + q + (2 ^ 64 - H)) % 2 ^ 64 = ahi + q - H := by omega
  rw [hval]
  refine ⟨by omega, by omega, ?_⟩
  -- congruence: (ahi + q - H) * 2^64 + R * q = T + q * 2^64
  have hid : (ahi + q - H) * 2 ^ 64 + R * q = T + q * 2 ^ 64 := by
    have hTsplit : T = ahi * 2 ^ 64 + alo := by
      rw [hahidef, halodef]
      omega
    rw [hRqsplit]
    zify [show H ≤ ahi + q by omega]
    rw [hTsplit]
    push_cast
    ring
  have h1 : (ahi + q - H) * 2 ^ 64 % q = ((ahi + q - H) * 2 ^ 64 + R * q) % q :=
    (Nat.add_mul_mod_self_right _ R q).symm
  have h2 : (T + q * 2 ^ 64) % q = T % q := by
    calc (T + q * 2 ^ 64) % q = (T + q * 2 ^ 64) % q := rfl
      _ = T % q := by
          conv_lhs => rw [show T + q * 2 ^ 64 = T + 2 ^ 64 * q by ring]
          exact Nat.add_mul_mod_self_right _ _ _
  rw [h1, hid, h2]

/-- MRed equals MRedConstant followed by one conditional subtraction. -/
theorem MRed_eq_cred (x y q qInv : Nat) :
    MRed x y q qInv = CRed (MRedConstant x y q qInv) q := rfl

/-- MRed returns the fully reduced Montgomery product. -/
theorem MRed_spec (x y q qInv : Nat) (hq0 : 0 < q) (h2q : 2 * q ≤ 2 ^ 64)
    (hqi : q * qInv % 2 ^ 64 = 1) (hxy : x * y < 2 ^ 64 * q) :
    MRed x y q qInv < q ∧ MRed x y q qInv * 2 ^ 64 % q = x * y % q := by
  obtain ⟨hpos, hlt, hcong⟩ := MRedConstant_spec x y q qInv hq0 h2q hqi hxy
  rw [MRed_eq_cred]
  set c := MRedConstant x y q qInv with hcdef
  unfold CRed
  rcases le_or_lt q c with h | h
  · rw [if_pos h]
    refine ⟨by omega, ?_⟩
    have : (c - q) * 2 ^ 64 + q * 2 ^ 64 = c * 2 ^ 64 := by
      zify [h]
      ring
    calc (c - q) * 2 ^ 64 % q = ((c - q) * 2 ^ 64 + 2 ^ 64 * q) % q := by
          rw [Nat.add_mul_mod_self_right]
      _ = c * 2 ^ 64 % q := by rw [show (c - q) * 2 ^ 64 + 2 ^ 64 * q = c * 2 ^ 64 by omega]
      _ = x * y % q := hcong
  · rw [if_neg (by omega)]
    exact ⟨h, hcong⟩

/-- BRed correctly computes x * y mod q for reduced operands. -/
theorem BRed_correct (x y q : Nat) (hq : 1 < q) (hq63 : q ≤ 2 ^ 63)
    (hx : x < q) (hy : y < q) :
    BRed x y q (BRedParams q) = x * y % q := by
  have hq0 : 0 < q := by omega
  simp only [BRed]
  set u0 := (BRedParams q).1 with hu0def
  set u1 := (BRedParams q).2 with hu1def
  set ahi := x * y / 2 ^ 64 with hahidef
  set alo := x * y % 2 ^ 64 with halodef
  set lhi := alo * u1 / 2 ^ 64 with hlhidef
  set mhi := alo * u0 / 2 ^ 64 with hmhidef
  set mlo := alo * u0 % 2 ^ 64 with hmlodef
  set s0 := (mlo + lhi) % 2 ^ 64 with hs0def
  set carry := (mlo + lhi) / 2 ^ 64 with hcarrydef
  set s1 := (mhi + carry) % 2 ^ 64 with hs1def
  set mhi2 := ahi * u1 / 2 ^ 64 with hmhi2def
  set mlo2 := ahi * u1 % 2 ^ 64 with hmlo2def
  set carry2 := (mlo2 + s0) / 2 ^ 64 with hcarry2def
  set lhi2 := (mhi2 + carry2) % 2 ^ 64 with hlhi2def
  set s := (ahi * u0 % 2 ^ 64 + s1 + lhi2) % 2 ^ 64 with hsdef
  set M := 2 ^ 128 / q with hMdef
  have hu01 : M = u0 * 2 ^ 64 + u1 := by
    show M = M / 2 ^ 64 * 2 ^ 64 + M % 2 ^ 64
    omega
  have hu1W : u1 < 2 ^ 64 := by
    show M % 2 ^ 64 < 2 ^ 64
    omega
  have hMq : M * q ≤ 2 ^ 128 := BRedParams_mul_le q
  have hMq2 : 2 ^ 128 < M * q + q := BRedParams_mul_gt q hq0
  set T := x * y with hTdef
  have hT : T < q * q := by
    calc T = x * y := hTdef
      _ < q * q := Nat.mul_lt_mul_of_lt_of_le hx (le_of_lt hy) hq0
  have hqq : q * q ≤ 2 ^ 126 := by
    calc q * q ≤ 2 ^ 63 * 2 ^ 63 := Nat.mul_le_mul hq63 hq63
      _ = 2 ^ 126 := by norm_num
  have hTsplit : T = ahi * 2 ^ 64 + alo := by omega
  have haloW : alo < 2 ^ 64 := by omega
  -- bound on u0
  have hu0 : u0 ≤ 2 ^ 63 := by
    have h1 : u0 = 2 ^ 128 / (q * 2 ^ 64) := BRedParams_fst_eq q
    have h2 : 2 * 2 ^ 64 ≤ q * 2 ^ 64 := Nat.mul_le_mul_right _ (by omega)
    calc u0 = 2 ^ 128 / (q * 2 ^ 64) := h1
      _ ≤ 2 ^ 128 / (2 * 2 ^ 64) := Nat.div_le_div_left h2 (by norm_num)
      _ = 2 ^ 63 := by norm_num
  -- bound on ahi
  have hahi : ahi < q := by
    have h1 : ahi * 2 ^ 64 ≤ T := by omega
    have h2 : T < q * 2 ^ 64 := by
      calc T < q * q := hT
        _ ≤ q * 2 ^ 63 := Nat.mul_le_mul_left q hq63
        _ ≤ q * 2 ^ 64 := Nat.mul_le_mul_left q (by norm_num)
    have h3 : ahi * 2 ^ 64 < q * 2 ^ 64 := by omega
    exact lt_of_mul_lt_mul_right h3 (Nat.zero_le _)
  -- the first carry chain: alo * u0 + lhi splits into s1 and s0
  have hmhi : mhi ≤ u0 := by
    have h1 : alo * u0 ≤ 2 ^ 64 * u0 := Nat.mul_le_mul_right u0 (by omega)
    have h2 : alo * u0 / 2 ^ 64 ≤ 2 ^ 64 * u0 / 2 ^ 64 := Nat.div_le_div_right h1
    have h3 : 2 ^ 64 * u0 / 2 ^ 64 = u0 := by
      rw [Nat.mul_div_cancel_left _ (by norm_num)]
    omega
  have hlhiW : lhi < 2 ^ 64 := by
    have h1 : alo * u1 < 2 ^ 64 * 2 ^ 64 :=
      Nat.mul_lt_mul_of_lt_of_le haloW (le_of_lt hu1W) (by norm_num)
    omega
  have hcarry1 : carry ≤ 1 := by omega
  have hs1nw : mhi + carry < 2 ^ 64 := by omega
  set Bv := alo * u0 + lhi with hBvdef
  have hBsplit : Bv = (mhi + carry) * 2 ^ 64 + s0 := by omega
  -- the second carry chain: Bv + ahi * u1 has upper word s1 + lhi2
  have hmhi2 : mhi2 ≤ ahi := by
    have h1 : ahi * u1 ≤ ahi * 2 ^ 64 := Nat.mul_le_mul_left ahi (by omega)
    have h2 : ahi * u1 / 2 ^ 64 ≤ ahi * 2 ^ 64 / 2 ^ 64 := Nat.div_le_div_right h1
    have h3 : ahi * 2 ^ 64 / 2 ^ 64 = ahi := by
      rw [Nat.mul_div_cancel _ (by norm_num)]
    omega
  have hcarry2le : carry2 ≤ 1 := by omega
  have hlhi2nw : mhi2 + carry2 < 2 ^ 64 := by omega
  set Cv := Bv + ahi * u1 with hCvdef
  have hCsplit : Cv = (s1 + lhi2) * 2 ^ 64 + (mlo2 + s0) % 2 ^ 64 := by
    have hs1e : s1 = mhi + carry := by omega
    have hlhi2e : lhi2 = mhi2 + carry2 := by omega
    omega
  -- the true quotient estimate
  set sv := ahi * u0 + s1 + lhi2 with hsvdef
  set e := alo * u1 % 2 ^ 64 with hedef
  have hTM : T * M = ahi * u0 * 2 ^ 128 + Cv * 2 ^ 64 + e := by
    have h3 : alo * u1 = lhi * 2 ^ 64 + e := by omega
    calc T * M = (ahi * 2 ^ 64 + alo) * (u0 * 2 ^ 64 + u1) := by rw [← hTsplit, ← hu01]
      _ = ahi * u0 * 2 ^ 128 + (alo * u0 + ahi * u1) * 2 ^ 64 + alo * u1 := by ring
      _ = ahi * u0 * 2 ^ 128 + (alo * u0 + ahi * u1) * 2 ^ 64 + (lhi * 2 ^ 64 + e) := by
          rw [h3]
      _ = ahi * u0 * 2 ^ 128 + (alo * u0 + lhi + ahi * u1) * 2 ^ 64 + e := by ring
      _ = ahi * u0 * 2 ^ 128 + Cv * 2 ^ 64 + e := by rw [hCvdef, hBvdef]
  have hCv64 : Cv / 2 ^ 64 = s1 + lhi2 := by omega
  have hsv2 : sv * 2 ^ 128 + e ≤ T * M := by
    have h1 : (Cv / 2 ^ 64) * 2 ^ 64 ≤ Cv := Nat.div_mul_le_self _ _
    have h2 : sv * 2 ^ 128 = ahi * u0 * 2 ^ 128 + (s1 + lhi2) * 2 ^ 128 := by
      rw [hsvdef]; ring
    have h3 : (s1 + lhi2) * 2 ^ 128 = ((Cv / 2 ^ 64) * 2 ^ 64) * 2 ^ 64 := by
      rw [hCv64]; ring
    have h4 : ((Cv / 2 ^ 64) * 2 ^ 64) * 2 ^ 64 ≤ Cv * 2 ^ 64 :=
      Nat.mul_le_mul_right _ h1
    omega
  have hsv3 : T * M < sv * 2 ^ 128 + 2 ^ 128 + e := by
    have h1 : Cv < (Cv / 2 ^ 64 + 1) * 2 ^ 64 := by omega
    have h2 : Cv * 2 ^ 64 < (Cv / 2 ^ 64 + 1) * 2 ^ 128 := by
      calc Cv * 2 ^ 64 < ((Cv / 2 ^ 64 + 1) * 2 ^ 64) * 2 ^ 64 :=
            Nat.mul_lt_mul_of_lt_of_le h1 (le_refl _) (by norm_num)
        _ = (Cv / 2 ^ 64 + 1) * 2 ^ 128 := by ring
    have h3 : (Cv / 2 ^ 64 + 1) * 2 ^ 128 = (s1 + lhi2) * 2 ^ 128 + 2 ^ 128 := by
      rw [hCv64]; ring
    have h4 : sv * 2 ^ 128 = ahi * u0 * 2 ^ 128 + (s1 + lhi2) * 2 ^ 128 := by
      rw [hsvdef]; ring
    omega
  -- upper estimate: sv * q ≤ T
  have hle : sv * q ≤ T := by
    have h1 : sv * 2 ^ 128 * q ≤ T * M * q := by
      have := Nat.mul_le_mul_right q (show sv * 2 ^ 128 ≤ T * M by omega)
      exact this
    have h2 : T * M * q ≤ T * 2 ^ 128 := by
      calc T * M * q = T * (M * q) := by ring
        _ ≤ T * 2 ^ 128 := Nat.mul_le_mul_left T hMq
    have h3 : sv * q * 2 ^ 128 ≤ T * 2 ^ 128 := by
      calc sv * q * 2 ^ 128 = sv * 2 ^ 128 * q := by ring
        _ ≤ T * 2 ^ 128 := le_trans h1 h2
    exact Nat.le_of_mul_le_mul_right h3 (by norm_num)
  -- sv fits below q, so the wrapped sum in the definition is exact
  have hsvq : sv < q := by
    have h1 : sv * q < q * q := lt_of_le_of_lt hle hT
    have h2 : q * sv < q * q := by
      calc q * sv = sv * q := by ring
        _ < q * q := h1
    exact lt_of_mul_lt_mul_left h2 (Nat.zero_le _)
  have hs_eq : s = sv := by
    have h1 : ahi * u0 ≤ sv := by omega
    have h2 : ahi * u0 % 2 ^ 64 = ahi * u0 := Nat.mod_eq_of_lt (by omega)
    omega
  -- lower estimate: T < sv * q + 2 * q
  have hlt : T < sv * q + 2 * q := by
    have heW : e < 2 ^ 64 := by omega
    have h1 : T * 2 ^ 128 ≤ T * M * q + T * q := by
      have h1a : T * 2 ^ 128 ≤ T * (M * q + q) := Nat.mul_le_mul_left T (le_of_lt hMq2)
      calc T * 2 ^ 128 ≤ T * (M * q + q) := h1a
        _ = T * M * q + T * q := by ring
    have h2 : T * M * q < (sv * 2 ^ 128 + 2 ^ 128 + e) * q :=
      Nat.mul_lt_mul_of_lt_of_le hsv3 (le_refl q) hq0
    have h3 : (sv * 2 ^ 128 + 2 ^ 128 + e) * q = sv * q * 2 ^ 128 + q * 2 ^ 128 + e * q := by
      ring
    have h4 : e * q + T * q ≤ q * 2 ^ 128 := by
      have h4a : e + T ≤ 2 ^ 128 := by
        have : T < 2 ^ 126 := lt_of_lt_of_le hT hqq
        omega
      calc e * q + T * q = (e + T) * q := by ring
        _ ≤ 2 ^ 128 * q := Nat.mul_le_mul_right q h4a
        _ = q * 2 ^ 128 := by ring
    have h5 : T * 2 ^ 128 < sv * q * 2 ^ 128 + 2 * q * 2 ^ 128 := by omega
    have h6 : T * 2 ^ 128 < (sv * q + 2 * q) * 2 ^ 128 := by
      calc T * 2 ^ 128 < sv * q * 2 ^ 128 + 2 * q * 2 ^ 128 := h5
        _ = (sv * q + 2 * q) * 2 ^ 128 := by ring
    exact lt_of_mul_lt_mul_right h6 (Nat.zero_le _)
  -- conclude as for BRedAdd
  have h2q : 2 * q ≤ 2 ^ 64 := by
    calc 2 * q ≤ 2 * 2 ^ 63 := by omega
      _ = 2 ^ 64 := by norm_num
  rw [hs_eq]
  have hr : (alo + (2 ^ 64 - sv * q % 2 ^ 64)) % 2 ^ 64 = T - sv * q := by omega
  rw [hr]
  have hxq : T % q = (T - sv * q) % q := by
    conv_lhs => rw [show T = T - sv * q + sv * q by omega]
    rw [Nat.add_mul_mod_self_right]
  rcases le_or_lt q (T - sv * q) with h | h
  · rw [if_pos h, hxq, Nat.mod_eq_sub_mod h, Nat.mod_eq_of_lt (by omega)]
  · rw [if_neg (by omega), hxq, Nat.mod_eq_of_lt h]

/-- Powers of two are coprime to any odd modulus. -/
theorem coprime_two_pow_odd (k q : Nat) (hodd : q % 2 = 1) :
    Nat.Coprime (2 ^ k) q := by
  refine Nat.Coprime.pow_left k ?_
  refine (Nat.Prime.coprime_iff_not_dvd Nat.prime_two).mpr ?_
  intro hdvd
  obtain ⟨m, hm⟩ := hdvd
  omega

/-- C1: for every supported word-sized prime q with its precomputed Barrett and
Montgomery constants, and for all a, b in [0, q), BRed(a, b, q, bredParams)
equals (a*b) mod q, and MRed(a, MForm(b, q, bredParams), q, mredParams) equals
(a*b) mod q, where mod is exact arbitrary-precision arithmetic. -/
theorem C1_modular_reduction_correct (q a b : Nat) (hodd : q % 2 = 1)
    (hq : 1 < q) (hq63 : q ≤ 2 ^ 63) (ha : a < q) (hb : b < q) :
    BRed a b q (BRedParams q) = a * b % q ∧
      MRed a (MForm b q (BRedParams q)) q (MRedParams q) = a * b % q := by
  have hq0 : 0 < q := by omega
  refine ⟨BRed_correct a b q hq hq63 ha hb, ?_⟩
  have hy : MForm b q (BRedParams q) = b * 2 ^ 64 % q := MForm_correct b q hq hq63 hb
  have hyq : MForm b q (BRedParams q) < q := by
    rw [hy]; exact Nat.mod_lt _ hq0
  have hqi : q * MRedParams q % 2 ^ 64 = 1 := MRedParams_correct q hodd (by omega)
  have h2q : 2 * q ≤ 2 ^ 64 := by
    calc 2 * q ≤ 2 * 2 ^ 63 := by omega
      _ = 2 ^ 64 := by norm_num
  have hxy : a * MForm b q (BRedParams q) < 2 ^ 64 * q := by
    calc a * MForm b q (BRedParams q) < q * q :=
          Nat.mul_lt_mul_of_lt_of_le ha (le_of_lt hyq) hq0
      _ ≤ 2 ^ 64 * q := Nat.mul_le_mul_right q (by omega)
  obtain ⟨hlt, hcong⟩ := MRed_spec a (MForm b q (BRedParams q)) q (MRedParams q)
    hq0 h2q hqi hxy
  have hcong2 : MRed a (MForm b q (BRedParams q)) q (MRedParams q) * 2 ^ 64 % q =
      a * b * 2 ^ 64 % q := by
    rw [hcong, hy, Nat.mul_mod_mod, ← mul_assoc]
  have hgcd : Nat.gcd q (2 ^ 64) = 1 :=
    Nat.Coprime.symm (coprime_two_pow_odd 64 q hodd)
  have hmodeq : MRed a (MForm b q (BRedParams q)) q (MRedParams q) ≡ a * b [MOD q] :=
    Nat.ModEq.cancel_right_of_coprime hgcd hcong2
  calc MRed a (MForm b q (BRedParams q)) q (MRedParams q)
      = MRed a (MForm b q (BRedParams q)) q (MRedParams q) % q := (Nat.mod_eq_of_lt hlt).symm
    _ = a * b % q := hmodeq

/-- Witness for C1 at the concrete prime q = 17 with a = 15, b = 16. -/
theorem C1_modular_reduction_correct_witness :
    (17 % 2 = 1 ∧ 1 < 17 ∧ 17 ≤ 2 ^ 63 ∧ 15 < 17 ∧ 16 < 17) ∧
      BRed 15 16 17 (BRedParams 17) = 15 * 16 % 17 ∧
      MRed 15 (MForm 16 17 (BRedParams 17)) 17 (MRedParams 17) = 15 * 16 % 17 :=
  ⟨by norm_num,
   C1_modular_reduction_correct 17 15 16 (by norm_num) (by norm_num) (by norm_num)
     (by norm_num) (by norm_num)⟩

/-! ## The NTT engine (ring/ntt.go)

Coefficient arrays are embedded as functions from index to value; each
butterfly pass of the source writes disjoint pairs (j, j+t) computed
only from the previous values of that same pair, so a pass is the pure
gather map `nttStage`.  The source loops `m = 1, 2, 4, ..., N/2` (the
first loop of `NTT` is the stage m = 1); the inverse loops
`h = N/2, ..., 1` (the first loop of `InvNTT` is the stage h = N/2). -/

/-- Butterfly computes X, Y = U + V*Psi, U - V*Psi mod Q, lazily.
Embedding of `func Butterfly(U, V, Psi, Q, Qinv uint64) (X, Y uint64)`. -/
def Butterfly (U V Psi Q Qinv : Nat) : Nat × Nat :=
  let U1 := if 2 * Q < U then U - 2 * Q else U
  let V1 := MRedConstant V Psi Q Qinv
  ((U1 + V1) % 2 ^ 64, (U1 + 2 * Q + (2 ^ 64 - V1)) % 2 ^ 64)

/-- InvButterfly computes X, Y = U + V, (U - V) * Psi mod Q, lazily.
Embedding of `func InvButterfly(U, V, Psi, Q, Qinv uint64) (X, Y uint64)`. -/
def InvButterfly (U V Psi Q Qinv : Nat) : Nat × Nat :=
  let X0 := (U + V) % 2 ^ 64
  let X := if 2 * Q < X0 then X0 - 2 * Q else X0
  (X, MRedConstant ((U + 2 * Q + (2 ^ 64 - V)) % 2 ^ 64) Psi Q Qinv)

/-- One pass of forward butterflies: the source stage with m groups pairs the
indices (j, j + t) with t = N / (2m) and twiddle factor nttPsi[m + i] for
group i = j / (2t); each pair is written from its own previous values. -/
def nttStage (N m : Nat) (psi : Nat → Nat) (Q Qinv : Nat) (v : Nat → Nat) :
    Nat → Nat :=
  fun j =>
    let t := N / (2 * m)
    let i := j / (2 * t)
    if j % (2 * t) < t then (Butterfly (v j) (v (j + t)) (psi (m + i)) Q Qinv).1
    else (Butterfly (v (j - t)) (v j) (psi (m + i)) Q Qinv).2

/-- One pass of inverse butterflies: the source stage with h groups pairs the
indices (j, j + t) with t = N / (2h) and twiddle factor nttPsiInv[h + i]. -/
def invNttStage (N h : Nat) (psiInv : Nat → Nat) (Q Qinv : Nat) (v : Nat → Nat) :
    Nat → Nat :=
  fun j =>
    let t := N / (2 * h)
    let i := j / (2 * t)
    if j % (2 * t) < t then (InvButterfly (v j) (v (j + t)) (psiInv (h + i)) Q Qinv).1
    else (InvButterfly (v (j - t)) (v j) (psiInv (h + i)) Q Qinv).2

/-- Sequential composition of forward stages. -/
def nttStages (N : Nat) (psi : Nat → Nat) (Q Qinv : Nat) :
    List Nat → (Nat → Nat) → (Nat → Nat)
  | [], v => v
  | m :: ms, v => nttStages N psi Q Qinv ms (nttStage N m psi Q Qinv v)

/-- Sequential composition of inverse stages. -/
def invNttStages (N : Nat) (psiInv : Nat → Nat) (Q Qinv : Nat) :
    List Nat → (Nat → Nat) → (Nat → Nat)
  | [], v => v
  | h :: hs, v => invNttStages N psiInv Q Qinv hs (invNttStage N h psiInv Q Qinv v)

/-- The forward stage sizes 1, 2, 4, ..., N/2 traversed by the source loops. -/
def stageList (N : Nat) : List Nat :=
  (List.range (Nat.log2 N)).map (2 ^ ·)

/-- NTT computes the forward transformation of `func NTT(coeffsIn, coeffsOut
[]uint64, N uint64, nttPsi []uint64, Q, mredParams uint64, bredParams
[]uint64)`: all butterfly stages followed by an exact BRedAdd pass. -/
def NTT (N : Nat) (psi : Nat → Nat) (Q Qinv : Nat) (u : Nat × Nat)
    (v : Nat → Nat) : Nat → Nat :=
  fun j => BRedAdd (nttStages N psi Q Qinv (stageList N) v j) Q u

/-- InvNTT computes the inverse transformation of `func InvNTT(coeffsIn,
coeffsOut []uint64, N uint64, nttPsiInv []uint64, nttNInv, Q, mredParams
uint64)`: the inverse stages in reverse order followed by an exact MRed
multiplication by nttNInv. -/
def InvNTT (N : Nat) (psiInv : Nat → Nat) (nttNInv Q Qinv : Nat)
    (v : Nat → Nat) : Nat → Nat :=
  fun j => MRed (invNttStages N psiInv Q Qinv (stageList N).reverse v j) nttNInv Q Qinv

/-- A modulus admitting an inverse modulo 2^64 is odd. -/
theorem odd_of_word_inverse (q qinv : Nat) (hqi : q * qinv % 2 ^ 64 = 1) :
    q % 2 = 1 := by
  have h2 : q * qinv % 2 = 1 := by
    have hdvd : (2 : Nat) ∣ 2 ^ 64 := dvd_pow_self 2 (by norm_num)
    have := Nat.mod_mod_of_dvd (q * qinv) hdvd
    omega
  rcases Nat.mod_two_eq_zero_or_one q with h | h
  · rw [Nat.mul_mod, h, Nat.zero_mul, Nat.zero_mod] at h2
    omega
  · exact h

/-- The Montgomery radix is a unit modulo an odd q. -/
theorem radix_isUnit (q : Nat) (hodd : q % 2 = 1) :
    IsUnit ((2 ^ 64 : Nat) : ZMod q) :=
  (ZMod.isUnit_iff_coprime _ q).mpr (coprime_two_pow_odd 64 q hodd)

/-- Congruent naturals cast to equal residues. -/
theorem natCast_eq_of_mod {a b q : Nat} (h : a % q = b % q) :
    (a : ZMod q) = b :=
  (ZMod.natCast_eq_natCast_iff a b q).mpr h

/-- The Montgomery product identity, in residue form. -/
theorem MRedConstant_cast (x y q qinv : Nat) (hq0 : 0 < q) (h2q : 2 * q ≤ 2 ^ 64)
    (hqi : q * qinv % 2 ^ 64 = 1) (hxy : x * y < 2 ^ 64 * q) :
    ((MRedConstant x y q qinv : Nat) : ZMod q) * ((2 ^ 64 : Nat) : ZMod q) =
      (x : ZMod q) * (y : ZMod q) := by
  obtain ⟨-, -, hcong⟩ := MRedConstant_spec x y q qinv hq0 h2q hqi hxy
  have := natCast_eq_of_mod (q := q) hcong
  push_cast at this
  exact this

/-- Index bookkeeping for one butterfly pass. -/
theorem stage_pair_decomp (t m j N : Nat) (ht : 0 < t) (hN : N = 2 * m * t)
    (hj : j < N) :
    j / (2 * t) < m ∧
    (j % (2 * t) < t →
      j + t < N ∧ (j + t) / (2 * t) = j / (2 * t) ∧
        (j + t) % (2 * t) = j % (2 * t) + t) ∧
    (t ≤ j % (2 * t) →
      t ≤ j ∧ (j - t) / (2 * t) = j / (2 * t) ∧
        (j - t) % (2 * t) = j % (2 * t) - t) := by
  have h2t : 0 < 2 * t := by omega
  have hdm := Nat.div_add_mod j (2 * t)
  have hmod := Nat.mod_lt j h2t
  set i := j / (2 * t) with hidef
  set pos := j % (2 * t) with hposdef
  have him : i < m := by
    rw [hidef, Nat.div_lt_iff_lt_mul h2t]
    calc j < N := hj
      _ = m * (2 * t) := by rw [hN]; ring
  refine ⟨him, fun hpos => ?_, fun hpos => ?_⟩
  · have hjt : j + t = 2 * t * i + (pos + t) := by omega
    have hptlt : pos + t < 2 * t := by omega
    refine ⟨?_, ?_, ?_⟩
    · have : i + 1 ≤ m := him
      calc j + t = 2 * t * i + (pos + t) := hjt
        _ < 2 * t * i + 2 * t := by omega
        _ = 2 * t * (i + 1) := by ring
        _ ≤ 2 * t * m := Nat.mul_le_mul_left _ him
        _ = N := by rw [hN]; ring
    · rw [hjt, Nat.mul_add_div h2t, Nat.div_eq_of_lt hptlt]
      omega
    · rw [hjt, Nat.mul_add_mod, Nat.mod_eq_of_lt hptlt]
  · have hjt : j - t = 2 * t * i + (pos - t) := by omega
    have hptlt : pos - t < 2 * t := by omega
    refine ⟨by omega, ?_, ?_⟩
    · rw [hjt, Nat.mul_add_div h2t, Nat.div_eq_of_lt hptlt]
      omega
    · rw [hjt, Nat.mul_add_mod, Nat.mod_eq_of_lt hptlt]

/-- Range and residue behaviour of one lazy forward butterfly. -/
theorem Butterfly_spec (U V psi q qinv : Nat) (hq0 : 0 < q) (h4q : 4 * q < 2 ^ 64)
    (hqi : q * qinv % 2 ^ 64 = 1) (hpsi : psi < q) (hU : U < 4 * q) (hV : V < 4 * q) :
    ((Butterfly U V psi q qinv).1 < 4 * q ∧ (Butterfly U V psi q qinv).2 < 4 * q) ∧
    ((Butterfly U V psi q qinv).1 : ZMod q) * ((2 ^ 64 : Nat) : ZMod q) =
      (U : ZMod q) * ((2 ^ 64 : Nat) : ZMod q) + (V : ZMod q) * (psi : ZMod q) ∧
    ((Butterfly U V psi q qinv).2 : ZMod q) * ((2 ^ 64 : Nat) : ZMod q) =
      (U : ZMod q) * ((2 ^ 64 : Nat) : ZMod q) - (V : ZMod q) * (psi : ZMod q) := by
  have h2q : 2 * q ≤ 2 ^ 64 := by omega
  have hVpsi : V * psi < 2 ^ 64 * q := by
    rcases Nat.eq_zero_or_pos psi with h0 | h0
    · rw [h0, Nat.mul_zero]
      positivity
    calc V * psi < 4 * q * q := Nat.mul_lt_mul_of_lt_of_le hV (le_of_lt hpsi) hq0
      _ < 2 ^ 64 * q := Nat.mul_lt_mul_of_lt_of_le h4q (le_refl q) hq0
  obtain ⟨hV1pos, hV1lt, hV1congN⟩ := MRedConstant_spec V psi q qinv hq0 h2q hqi hVpsi
  have hV1cast := MRedConstant_cast V psi q qinv hq0 h2q hqi hVpsi
  simp only [Butterfly]
  set U1 := if 2 * q < U then U - 2 * q else U with hU1def
  set V1 := MRedConstant V psi q qinv with hV1def
  have hU1 : U1 ≤ 2 * q := by
    rw [hU1def]
    split <;> omega
  have hU1cast : ((U1 : Nat) : ZMod q) = (U : ZMod q) := by
    rw [hU1def]
    split
    · rename_i h
      rw [Nat.cast_sub (by omega)]
      push_cast
      simp [ZMod.natCast_self]
    · rfl
  have hXeq : (U1 + V1) % 2 ^ 64 = U1 + V1 := Nat.mod_eq_of_lt (by omega)
  have hYeq : (U1 + 2 * q + (2 ^ 64 - V1)) % 2 ^ 64 = U1 + 2 * q - V1 := by omega
  refine ⟨⟨?_, ?_⟩, ?_, ?_⟩
  · show (U1 + V1) % 2 ^ 64 < 4 * q
    omega
  · show (U1 + 2 * q + (2 ^ 64 - V1)) % 2 ^ 64 < 4 * q
    omega
  · show (((U1 + V1) % 2 ^ 64 : Nat) : ZMod q) * _ = _
    rw [hXeq, Nat.cast_add, add_mul, hU1cast, hV1cast]
  · show (((U1 + 2 * q + (2 ^ 64 - V1)) % 2 ^ 64 : Nat) : ZMod q) * _ = _
    rw [hYeq]
    have hcast : ((U1 + 2 * q - V1 : Nat) : ZMod q) =
        (U : ZMod q) - ((V1 : Nat) : ZMod q) := by
      rw [Nat.cast_sub (by omega), Nat.cast_add, Nat.cast_mul, ZMod.natCast_self,
        Nat.cast_ofNat, mul_zero, add_zero, hU1cast]
    rw [hcast, sub_mul, hV1cast]

/-- Range and residue behaviour of one lazy inverse butterfly. -/
theorem InvButterfly_spec (U V psi q qinv : Nat) (hq0 : 0 < q) (h4q : 4 * q < 2 ^ 64)
    (hqi : q * qinv % 2 ^ 64 = 1) (hpsi : psi < q) (hU : U ≤ 2 * q) (hV : V ≤ 2 * q) :
    ((InvButterfly U V psi q qinv).1 ≤ 2 * q ∧ (InvButterfly U V psi q qinv).2 ≤ 2 * q) ∧
    ((InvButterfly U V psi q qinv).1 : ZMod q) = (U : ZMod q) + (V : ZMod q) ∧
    ((InvButterfly U V psi q qinv).2 : ZMod q) * ((2 ^ 64 : Nat) : ZMod q) =
      ((U : ZMod q) - (V : ZMod q)) * (psi : ZMod q) := by
  have h2q : 2 * q ≤ 2 ^ 64 := by omega
  set A := (U + 2 * q + (2 ^ 64 - V)) % 2 ^ 64 with hAdef
  have hA : A = U + 2 * q - V := by omega
  have hAle : A ≤ 4 * q := by omega
  have hApsi : A * psi < 2 ^ 64 * q := by
    rcases Nat.eq_zero_or_pos psi with h0 | h0
    · rw [h0, Nat.mul_zero]
      positivity
    calc A * psi ≤ 4 * q * psi := Nat.mul_le_mul_right psi hAle
      _ < 4 * q * q := by
          have := Nat.mul_lt_mul_of_le_of_lt (le_refl (4 * q)) hpsi (by omega)
          exact this
      _ < 2 ^ 64 * q := Nat.mul_lt_mul_of_lt_of_le h4q (le_refl q) hq0
  obtain ⟨hYpos, hYlt, hYcongN⟩ := MRedConstant_spec A psi q qinv hq0 h2q hqi hApsi
  have hYcast := MRedConstant_cast A psi q qinv hq0 h2q hqi hApsi
  simp only [InvButterfly]
  set X0 := (U + V) % 2 ^ 64 with hX0def
  have hX0 : X0 = U + V := Nat.mod_eq_of_lt (by omega)
  refine ⟨⟨?_, ?_⟩, ?_, ?_⟩
  · show (if 2 * q < X0 then X0 - 2 * q else X0) ≤ 2 * q
    split <;> omega
  · show MRedConstant A psi q qinv ≤ 2 * q
    omega
  · show (((if 2 * q < X0 then X0 - 2 * q else X0) : Nat) : ZMod q) = _
    split
    · rename_i h
      rw [Nat.cast_sub (by omega), hX0, Nat.cast_add, Nat.cast_mul, ZMod.natCast_self,
        Nat.cast_ofNat, mul_zero, sub_zero]
    · rw [hX0, Nat.cast_add]
  · show ((MRedConstant A psi q qinv : Nat) : ZMod q) * _ = _
    rw [hYcast]
    congr 1
    rw [hA, Nat.cast_sub (by omega), Nat.cast_add, Nat.cast_mul, ZMod.natCast_self,
      Nat.cast_ofNat, mul_zero, add_zero]

/-- One forward pass keeps every entry lazily bounded by 4q. -/
theorem nttStage_bound (N m t : Nat) (psi : Nat → Nat) (q qinv : Nat)
    (hq0 : 0 < q) (h4q : 4 * q < 2 ^ 64) (hqi : q * qinv % 2 ^ 64 = 1)
    (ht : 0 < t) (hN : N = 2 * m * t) (hm : 1 ≤ m)
    (hpsi : ∀ k, 1 ≤ k → k < N → psi k < q)
    (v : Nat → Nat) (hv : ∀ j, j < N → v j < 4 * q) :
    ∀ j, j < N → nttStage N m psi q qinv v j < 4 * q := by
  intro j hj
  have htN : N / (2 * m) = t := by
    rw [hN]
    exact Nat.mul_div_cancel_left t (by omega)
  obtain ⟨him, hX, hY⟩ := stage_pair_decomp t m j N ht hN hj
  have h2mN : 2 * m ≤ N := by
    rw [hN]
    calc 2 * m = 2 * m * 1 := by ring
      _ ≤ 2 * m * t := Nat.mul_le_mul_left _ ht
  have hk1 : 1 ≤ m + j / (2 * t) := le_trans hm (Nat.le_add_right m _)
  have hk2 : m + j / (2 * t) < N := by
    have hmm : m + m ≤ N := by omega
    exact lt_of_lt_of_le (Nat.add_lt_add_left him m) hmm
  have hpsik := hpsi _ hk1 hk2
  unfold nttStage
  rw [htN]
  rcases Nat.lt_or_ge (j % (2 * t)) t with hpos | hpos
  · obtain ⟨hjt, -, -⟩ := hX hpos
    rw [if_pos hpos]
    exact ((Butterfly_spec (v j) (v (j + t)) (psi (m + j / (2 * t))) q qinv hq0 h4q hqi
      hpsik (hv j hj) (hv (j + t) hjt)).1).1
  · obtain ⟨hjt, -, -⟩ := hY hpos
    rw [if_neg (Nat.not_lt.mpr hpos)]
    exact ((Butterfly_spec (v (j - t)) (v j) (psi (m + j / (2 * t))) q qinv hq0 h4q hqi
      hpsik (hv (j - t) (by omega)) (hv j hj)).1).2

/-- An inverse pass undoes the matching forward pass up to a factor 2:
if w is congruent to c times the forward pass of v, then the inverse pass
of w is congruent to 2c times v, and stays lazily bounded by 2q. -/
theorem stage_cancel (N m t : Nat) (psi psiInv : Nat → Nat) (q qinv : Nat)
    (hq0 : 0 < q) (h4q : 4 * q < 2 ^ 64) (hqi : q * qinv % 2 ^ 64 = 1)
    (ht : 0 < t) (hN : N = 2 * m * t) (hm : 1 ≤ m)
    (hpsi : ∀ k, 1 ≤ k → k < N → psi k < q)
    (hpsiInv : ∀ k, 1 ≤ k → k < N → psiInv k < q)
    (htbl : ∀ k, 1 ≤ k → k < N → psi k * psiInv k % q = 2 ^ 128 % q)
    (v w : Nat → Nat) (c : ZMod q)
    (hv : ∀ j, j < N → v j < 4 * q) (hw : ∀ j, j < N → w j ≤ 2 * q)
    (hcong : ∀ j, j < N → (w j : ZMod q) = c * (nttStage N m psi q qinv v j : ZMod q)) :
    ∀ j, j < N → invNttStage N m psiInv q qinv w j ≤ 2 * q ∧
      (invNttStage N m psiInv q qinv w j : ZMod q) = 2 * c * (v j : ZMod q) := by
  intro j hj
  have hRu : IsUnit ((2 ^ 64 : Nat) : ZMod q) :=
    radix_isUnit q (odd_of_word_inverse q qinv hqi)
  have htN : N / (2 * m) = t := by
    rw [hN]
    exact Nat.mul_div_cancel_left t (by omega)
  obtain ⟨him, hX, hY⟩ := stage_pair_decomp t m j N ht hN hj
  have h2mN : 2 * m ≤ N := by
    rw [hN]
    calc 2 * m = 2 * m * 1 := by ring
      _ ≤ 2 * m * t := Nat.mul_le_mul_left _ ht
  have hk1 : 1 ≤ m + j / (2 * t) := le_trans hm (Nat.le_add_right m _)
  have hk2 : m + j / (2 * t) < N := by
    have hmm : m + m ≤ N := by omega
    exact lt_of_lt_of_le (Nat.add_lt_add_left him m) hmm
  have hpsik := hpsi _ hk1 hk2
  have hpsiInvk := hpsiInv _ hk1 hk2
  have htblk : ((psi (m + j / (2 * t)) : Nat) : ZMod q) *
      ((psiInv (m + j / (2 * t)) : Nat) : ZMod q) =
      ((2 ^ 64 : Nat) : ZMod q) * ((2 ^ 64 : Nat) : ZMod q) := by
    have h1 := natCast_eq_of_mod (q := q) (htbl _ hk1 hk2)
    rw [Nat.cast_mul] at h1
    rw [h1, show (2 : Nat) ^ 128 = 2 ^ 64 * 2 ^ 64 by norm_num, Nat.cast_mul]
  rcases Nat.lt_or_ge (j % (2 * t)) t with hpos | hpos
  -- X position: the inverse butterfly adds the two halves of the forward pair
  · obtain ⟨hjt, hdiv, hmod⟩ := hX hpos
    have hfwdj : nttStage N m psi q qinv v j =
        (Butterfly (v j) (v (j + t)) (psi (m + j / (2 * t))) q qinv).1 := by
      unfold nttStage
      rw [htN, if_pos hpos]
    have hfwdjt : nttStage N m psi q qinv v (j + t) =
        (Butterfly (v j) (v (j + t)) (psi (m + j / (2 * t))) q qinv).2 := by
      unfold nttStage
      rw [htN, if_neg (by omega), hdiv, Nat.add_sub_cancel]
    have hinv : invNttStage N m psiInv q qinv w j =
        (InvButterfly (w j) (w (j + t)) (psiInv (m + j / (2 * t))) q qinv).1 := by
      unfold invNttStage
      rw [htN, if_pos hpos]
    obtain ⟨⟨hIB1, -⟩, hIBX, -⟩ := InvButterfly_spec (w j) (w (j + t))
      (psiInv (m + j / (2 * t))) q qinv hq0 h4q hqi hpsiInvk (hw j hj) (hw _ hjt)
    obtain ⟨-, hBF1, hBF2⟩ := Butterfly_spec (v j) (v (j + t))
      (psi (m + j / (2 * t))) q qinv hq0 h4q hqi hpsik (hv j hj) (hv _ hjt)
    refine ⟨by rw [hinv]; exact hIB1, ?_⟩
    rw [hinv, hIBX, hcong j hj, hcong _ hjt, hfwdj, hfwdjt]
    have hsum : (((Butterfly (v j) (v (j + t)) (psi (m + j / (2 * t))) q qinv).1 : ZMod q) +
        ((Butterfly (v j) (v (j + t)) (psi (m + j / (2 * t))) q qinv).2 : ZMod q)) *
        ((2 ^ 64 : Nat) : ZMod q) = (2 * (v j : ZMod q)) * ((2 ^ 64 : Nat) : ZMod q) := by
      rw [add_mul, hBF1, hBF2]
      ring
    have := hRu.mul_right_cancel hsum
    calc c * ((Butterfly (v j) (v (j + t)) (psi (m + j / (2 * t))) q qinv).1 : ZMod q) +
          c * ((Butterfly (v j) (v (j + t)) (psi (m + j / (2 * t))) q qinv).2 : ZMod q)
        = c * (((Butterfly (v j) (v (j + t)) (psi (m + j / (2 * t))) q qinv).1 : ZMod q) +
            ((Butterfly (v j) (v (j + t)) (psi (m + j / (2 * t))) q qinv).2 : ZMod q)) := by
          ring
      _ = c * (2 * (v j : ZMod q)) := by rw [this]
      _ = 2 * c * (v j : ZMod q) := by ring
  -- Y position: the inverse butterfly recovers the odd half via the tables
  · obtain ⟨htj, hdiv, hmod⟩ := hY hpos
    have hjtN : j - t < N := by omega
    have hsub : j - t + t = j := Nat.sub_add_cancel htj
    have hmodlt : j % (2 * t) < 2 * t := Nat.mod_lt j (by omega)
    have hposlt : (j - t) % (2 * t) < t := by
      rw [hmod]
      omega
    have hfwdj1 : nttStage N m psi q qinv v (j - t) =
        (Butterfly (v (j - t)) (v j) (psi (m + j / (2 * t))) q qinv).1 := by
      unfold nttStage
      rw [htN, if_pos hposlt, hdiv, hsub]
    have hfwdj2 : nttStage N m psi q qinv v j =
        (Butterfly (v (j - t)) (v j) (psi (m + j / (2 * t))) q qinv).2 := by
      unfold nttStage
      rw [htN, if_neg (Nat.not_lt.mpr hpos)]
    have hinv : invNttStage N m psiInv q qinv w j =
        (InvButterfly (w (j - t)) (w j) (psiInv (m + j / (2 * t))) q qinv).2 := by
      unfold invNttStage
      rw [htN, if_neg (Nat.not_lt.mpr hpos)]
    obtain ⟨⟨-, hIB2⟩, -, hIBY⟩ := InvButterfly_spec (w (j - t)) (w j)
      (psiInv (m + j / (2 * t))) q qinv hq0 h4q hqi hpsiInvk (hw _ hjtN) (hw j hj)
    obtain ⟨-, hBF1, hBF2⟩ := Butterfly_spec (v (j - t)) (v j)
      (psi (m + j / (2 * t))) q qinv hq0 h4q hqi hpsik (hv _ hjtN) (hv j hj)
    refine ⟨by rw [hinv]; exact hIB2, ?_⟩
    -- cancel the Montgomery radix twice
    have hdiff : (((Butterfly (v (j - t)) (v j) (psi (m + j / (2 * t))) q qinv).1 : ZMod q) -
        ((Butterfly (v (j - t)) (v j) (psi (m + j / (2 * t))) q qinv).2 : ZMod q)) *
        ((2 ^ 64 : Nat) : ZMod q) =
        (2 * (v j : ZMod q) * ((psi (m + j / (2 * t)) : Nat) : ZMod q)) := by
      rw [sub_mul, hBF1, hBF2]
      ring
    have hkey : ((InvButterfly (w (j - t)) (w j) (psiInv (m + j / (2 * t))) q qinv).2 : ZMod q) *
        (((2 ^ 64 : Nat) : ZMod q) * ((2 ^ 64 : Nat) : ZMod q)) =
        (2 * c * (v j : ZMod q)) * (((2 ^ 64 : Nat) : ZMod q) * ((2 ^ 64 : Nat) : ZMod q)) := by
      calc ((InvButterfly (w (j - t)) (w j) (psiInv (m + j / (2 * t))) q qinv).2 : ZMod q) *
            (((2 ^ 64 : Nat) : ZMod q) * ((2 ^ 64 : Nat) : ZMod q))
          = (((InvButterfly (w (j - t)) (w j) (psiInv (m + j / (2 * t))) q qinv).2 : ZMod q) *
              ((2 ^ 64 : Nat) : ZMod q)) * ((2 ^ 64 : Nat) : ZMod q) := by ring
        _ = (((w (j - t) : ZMod q) - (w j : ZMod q)) *
              ((psiInv (m + j / (2 * t)) : Nat) : ZMod q)) * ((2 ^ 64 : Nat) : ZMod q) := by
            rw [hIBY]
        _ = ((c * ((Butterfly (v (j - t)) (v j) (psi (m + j / (2 * t))) q qinv).1 : ZMod q) -
              c * ((Butterfly (v (j - t)) (v j) (psi (m + j / (2 * t))) q qinv).2 : ZMod q)) *
              ((psiInv (m + j / (2 * t)) : Nat) : ZMod q)) * ((2 ^ 64 : Nat) : ZMod q) := by
            rw [hcong _ hjtN, hcong j hj, hfwdj1, hfwdj2]
        _ = c * ((psiInv (m + j / (2 * t)) : Nat) : ZMod q) *
              ((((Butterfly (v (j - t)) (v j) (psi (m + j / (2 * t))) q qinv).1 : ZMod q) -
                ((Butterfly (v (j - t)) (v j) (psi (m + j / (2 * t))) q qinv).2 : ZMod q)) *
                ((2 ^ 64 : Nat) : ZMod q)) := by ring
        _ = c * ((psiInv (m + j / (2 * t)) : Nat) : ZMod q) *
              (2 * (v j : ZMod q) * ((psi (m + j / (2 * t)) : Nat) : ZMod q)) := by
            rw [hdiff]
        _ = (2 * c * (v j : ZMod q)) * (((psi (m + j / (2 * t)) : Nat) : ZMod q) *
              ((psiInv (m + j / (2 * t)) : Nat) : ZMod q)) := by ring
        _ = (2 * c * (v j : ZMod q)) * (((2 ^ 64 : Nat) : ZMod q) * ((2 ^ 64 : Nat) : ZMod q)) := by
            rw [htblk]
    rw [hinv]
    exact (hRu.mul_right_cancel (hRu.mul_right_cancel (by
      calc ((InvButterfly (w (j - t)) (w j) (psiInv (m + j / (2 * t))) q qinv).2 : ZMod q) *
            ((2 ^ 64 : Nat) : ZMod q) * ((2 ^ 64 : Nat) : ZMod q)
          = ((InvButterfly (w (j - t)) (w j) (psiInv (m + j / (2 * t))) q qinv).2 : ZMod q) *
            (((2 ^ 64 : Nat) : ZMod q) * ((2 ^ 64 : Nat) : ZMod q)) := by ring
        _ = (2 * c * (v j : ZMod q)) * (((2 ^ 64 : Nat) : ZMod q) * ((2 ^ 64 : Nat) : ZMod q)) := hkey
        _ = 2 * c * (v j : ZMod q) * ((2 ^ 64 : Nat) : ZMod q) * ((2 ^ 64 : Nat) : ZMod q) := by
            ring)))

/-- Stage composition distributes over list append. -/
theorem invNttStages_append (N : Nat) (psiInv : Nat → Nat) (q qinv : Nat)
    (l1 l2 : List Nat) (v : Nat → Nat) :
    invNttStages N psiInv q qinv (l1 ++ l2) v =
      invNttStages N psiInv q qinv l2 (invNttStages N psiInv q qinv l1 v) := by
  induction l1 generalizing v with
  | nil => rfl
  | cons h l ih =>
      show invNttStages N psiInv q qinv (l ++ l2) _ = _
      rw [ih]
      rfl

/-- All forward passes keep the lazy 4q bound. -/
theorem nttStages_bound (N : Nat) (psi : Nat → Nat) (q qinv : Nat)
    (hq0 : 0 < q) (h4q : 4 * q < 2 ^ 64) (hqi : q * qinv % 2 ^ 64 = 1)
    (hpsi : ∀ k, 1 ≤ k → k < N → psi k < q) :
    ∀ ms : List Nat, (∀ m ∈ ms, 1 ≤ m ∧ ∃ t, 0 < t ∧ N = 2 * m * t) →
    ∀ v, (∀ j, j < N → v j < 4 * q) →
    ∀ j, j < N → nttStages N psi q qinv ms v j < 4 * q := by
  intro ms
  induction ms with
  | nil => intro _ v hv j hj; exact hv j hj
  | cons m ms ih =>
      intro hvalid v hv j hj
      obtain ⟨hm, t, ht, hN⟩ := hvalid m (List.mem_cons_self m ms)
      show nttStages N psi q qinv ms (nttStage N m psi q qinv v) j < 4 * q
      exact ih (fun m' hm' => hvalid m' (List.mem_cons_of_mem m hm'))
        (nttStage N m psi q qinv v)
        (nttStage_bound N m t psi q qinv hq0 h4q hqi ht hN hm hpsi v hv) j hj

/-- The inverse stages, run in reverse order, undo the forward stages up to
multiplication by 2 to the number of stages. -/
theorem roundtrip_aux (N : Nat) (psi psiInv : Nat → Nat) (q qinv : Nat)
    (hq0 : 0 < q) (h4q : 4 * q < 2 ^ 64) (hqi : q * qinv % 2 ^ 64 = 1)
    (hpsi : ∀ k, 1 ≤ k → k < N → psi k < q)
    (hpsiInv : ∀ k, 1 ≤ k → k < N → psiInv k < q)
    (htbl : ∀ k, 1 ≤ k → k < N → psi k * psiInv k % q = 2 ^ 128 % q) :
    ∀ ms : List Nat, (∀ m ∈ ms, 1 ≤ m ∧ ∃ t, 0 < t ∧ N = 2 * m * t) →
    ∀ v w (c : ZMod q),
    (∀ j, j < N → v j < 4 * q) → (∀ j, j < N → w j ≤ 2 * q) →
    (∀ j, j < N → (w j : ZMod q) = c * (nttStages N psi q qinv ms v j : ZMod q)) →
    ∀ j, j < N → invNttStages N psiInv q qinv ms.reverse w j ≤ 2 * q ∧
      (invNttStages N psiInv q qinv ms.reverse w j : ZMod q) =
        2 ^ ms.length * c * (v j : ZMod q) := by
  intro ms
  induction ms with
  | nil =>
      intro _ v w c hv hw hcong j hj
      refine ⟨hw j hj, ?_⟩
      have := hcong j hj
      simpa using this
  | cons m ms ih =>
      intro hvalid v w c hv hw hcong j hj
      obtain ⟨hm, t, ht, hN⟩ := hvalid m (List.mem_cons_self m ms)
      have hrest := fun m' hm' => hvalid m' (List.mem_cons_of_mem m hm')
      have hv' := nttStage_bound N m t psi q qinv hq0 h4q hqi ht hN hm hpsi v hv
      have hih := ih hrest (nttStage N m psi q qinv v) w c hv' hw hcong
      have hu_bound : ∀ j', j' < N →
          invNttStages N psiInv q qinv ms.reverse w j' ≤ 2 * q :=
        fun j' hj' => (hih j' hj').1
      have hu_cong : ∀ j', j' < N →
          (invNttStages N psiInv q qinv ms.reverse w j' : ZMod q) =
            (2 ^ ms.length * c) * (nttStage N m psi q qinv v j' : ZMod q) :=
        fun j' hj' => by rw [(hih j' hj').2]
      have hres := stage_cancel N m t psi psiInv q qinv hq0 h4q hqi ht hN hm
        hpsi hpsiInv htbl v (invNttStages N psiInv q qinv ms.reverse w)
        (2 ^ ms.length * c) hv hu_bound hu_cong j hj
      have hrw : invNttStages N psiInv q qinv (m :: ms).reverse w =
          invNttStage N m psiInv q qinv (invNttStages N psiInv q qinv ms.reverse w) := by
        rw [List.reverse_cons, invNttStages_append]
        rfl
      rw [hrw]
      refine ⟨hres.1, ?_⟩
      rw [hres.2, List.length_cons]
      ring

/-- Every stage size in the forward schedule of a power-of-two N splits N as
2 * m * t with t positive. -/
theorem stageList_valid (L : Nat) :
    ∀ m ∈ stageList (2 ^ L), 1 ≤ m ∧ ∃ t, 0 < t ∧ 2 ^ L = 2 * m * t := by
  intro m hm
  unfold stageList at hm
  rw [List.mem_map] at hm
  obtain ⟨s, hs, rfl⟩ := hm
  rw [List.mem_range, Nat.log2_eq_log_two, Nat.log_pow (by norm_num)] at hs
  refine ⟨Nat.one_le_two_pow, 2 ^ (L - 1 - s), by positivity, ?_⟩
  have hexp : 1 + s + (L - 1 - s) = L := by omega
  calc 2 ^ L = 2 ^ (1 + s + (L - 1 - s)) := by rw [hexp]
    _ = 2 * 2 ^ s * 2 ^ (L - 1 - s) := by rw [pow_add, pow_add, pow_one]

/-- The forward schedule of a power-of-two N has exactly log2 N stages. -/
theorem stageList_length (L : Nat) : (stageList (2 ^ L)).length = L := by
  unfold stageList
  rw [List.length_map, List.length_range, Nat.log2_eq_log_two,
    Nat.log_pow (by norm_num)]

/-- C2: for a power-of-two ring degree N = 2^L, an odd NTT-friendly modulus q
with 4q < 2^64, twiddle tables satisfying the Montgomery product relation
psi[k] * psiInv[k] = 2^128 mod q, and nttNInv the Montgomery form of N^-1
mod q, InvNTT inverts NTT exactly on every coefficient vector reduced mod q:
InvNTT(NTT(v)) = v coefficientwise. -/
theorem C2_ntt_invntt_roundtrip (L q qinv nInv : Nat) (psi psiInv v : Nat → Nat)
    (hqi : q * qinv % 2 ^ 64 = 1) (h4q : 4 * q < 2 ^ 64) (hq1 : 1 < q)
    (hpsi : ∀ k < 2 ^ L, 1 ≤ k → psi k < q)
    (hpsiInv : ∀ k < 2 ^ L, 1 ≤ k → psiInv k < q)
    (htbl : ∀ k < 2 ^ L, 1 ≤ k → psi k * psiInv k % q = 2 ^ 128 % q)
    (hnInv : nInv < q) (hNinv : 2 ^ L * nInv % q = 2 ^ 64 % q)
    (hv : ∀ j < 2 ^ L, v j < q) :
    ∀ j < 2 ^ L, InvNTT (2 ^ L) psiInv nInv q qinv
      (NTT (2 ^ L) psi q qinv (BRedParams q) v) j = v j := by
  intro j hj
  have hq0 : 0 < q := by omega
  have hq63 : q ≤ 2 ^ 63 := by omega
  have h2q : 2 * q ≤ 2 ^ 64 := by omega
  have hv4 : ∀ j', j' < 2 ^ L → v j' < 4 * q := by
    intro j' hj'
    have := hv j' hj'
    omega
  have hS : ∀ j', j' < 2 ^ L →
      nttStages (2 ^ L) psi q qinv (stageList (2 ^ L)) v j' < 4 * q :=
    nttStages_bound (2 ^ L) psi q qinv hq0 h4q hqi
      (fun k h1 h2 => hpsi k h2 h1) (stageList (2 ^ L)) (stageList_valid L) v hv4
  have hw_val : ∀ j', j' < 2 ^ L →
      NTT (2 ^ L) psi q qinv (BRedParams q) v j' =
        nttStages (2 ^ L) psi q qinv (stageList (2 ^ L)) v j' % q := by
    intro j' hj'
    exact BRedAdd_correct _ q hq1 hq63 (lt_trans (hS j' hj') h4q)
  have hw_le : ∀ j', j' < 2 ^ L →
      NTT (2 ^ L) psi q qinv (BRedParams q) v j' ≤ 2 * q := by
    intro j' hj'
    rw [hw_val j' hj']
    have := Nat.mod_lt (nttStages (2 ^ L) psi q qinv (stageList (2 ^ L)) v j') hq0
    omega
  have hw_cong : ∀ j', j' < 2 ^ L →
      ((NTT (2 ^ L) psi q qinv (BRedParams q) v j' : Nat) : ZMod q) =
        1 * ((nttStages (2 ^ L) psi q qinv (stageList (2 ^ L)) v j' : Nat) : ZMod q) := by
    intro j' hj'
    rw [hw_val j' hj', ZMod.natCast_mod, one_mul]
  have hround := roundtrip_aux (2 ^ L) psi psiInv q qinv hq0 h4q hqi
    (fun k h1 h2 => hpsi k h2 h1) (fun k h1 h2 => hpsiInv k h2 h1)
    (fun k h1 h2 => htbl k h2 h1)
    (stageList (2 ^ L)) (stageList_valid L) v
    (NTT (2 ^ L) psi q qinv (BRedParams q) v) 1 hv4 hw_le hw_cong j hj
  obtain ⟨hu_le, hu_cast⟩ := hround
  rw [stageList_length L] at hu_cast
  show MRed (invNttStages (2 ^ L) psiInv q qinv (stageList (2 ^ L)).reverse
    (NTT (2 ^ L) psi q qinv (BRedParams q) v) j) nInv q qinv = v j
  set u := invNttStages (2 ^ L) psiInv q qinv (stageList (2 ^ L)).reverse
    (NTT (2 ^ L) psi q qinv (BRedParams q) v) j with hudef
  have hxy : u * nInv < 2 ^ 64 * q := by
    have h1 : u * nInv ≤ 2 * q * nInv := Nat.mul_le_mul_right _ hu_le
    have h2 : 2 * q * nInv < 2 * q * q := mul_lt_mul_of_pos_left hnInv (by omega)
    have h3 : 2 * q * q ≤ 2 ^ 64 * q := Nat.mul_le_mul_right q h2q
    exact lt_of_le_of_lt h1 (lt_of_lt_of_le h2 h3)
  obtain ⟨hout_lt, hout_cong⟩ := MRed_spec u nInv q qinv hq0 h2q hqi hxy
  have hRu := radix_isUnit q (odd_of_word_inverse q qinv hqi)
  have hc1 : ((MRed u nInv q qinv : Nat) : ZMod q) * ((2 ^ 64 : Nat) : ZMod q) =
      (u : ZMod q) * ((nInv : Nat) : ZMod q) := by
    have h := natCast_eq_of_mod (q := q) hout_cong
    rw [Nat.cast_mul, Nat.cast_mul] at h
    exact h
  have hc2 : ((2 ^ L * nInv : Nat) : ZMod q) = ((2 ^ 64 : Nat) : ZMod q) :=
    natCast_eq_of_mod hNinv
  have hc3 : (2 : ZMod q) ^ L * ((nInv : Nat) : ZMod q) = ((2 ^ 64 : Nat) : ZMod q) := by
    rw [← hc2, Nat.cast_mul, Nat.cast_pow, Nat.cast_ofNat]
  have hc4 : ((MRed u nInv q qinv : Nat) : ZMod q) * ((2 ^ 64 : Nat) : ZMod q) =
      ((v j : Nat) : ZMod q) * ((2 ^ 64 : Nat) : ZMod q) := by
    rw [hc1, hu_cast]
    have hrearr : ((2 : ZMod q) ^ L * 1 * ((v j : Nat) : ZMod q)) * ((nInv : Nat) : ZMod q) =
        ((v j : Nat) : ZMod q) * ((2 : ZMod q) ^ L * ((nInv : Nat) : ZMod q)) := by
      ring
    rw [hrearr, hc3]
  have hfinal : ((MRed u nInv q qinv : Nat) : ZMod q) = ((v j : Nat) : ZMod q) :=
    hRu.mul_right_cancel hc4
  have hmodeq : MRed u nInv q qinv % q = v j % q :=
    (ZMod.natCast_eq_natCast_iff _ _ _).mp hfinal
  rw [Nat.mod_eq_of_lt hout_lt, Nat.mod_eq_of_lt (hv j hj)] at hmodeq
  exact hmodeq

/-- Twiddle table for N = 8, q = 17: nttPsi[k] is the Montgomery form of
psi^bitrev(k) for a primitive 16th root of unity psi mod 17 (here 2^64 = 1
mod 17, so the Montgomery form equals the plain value). -/
def psiTable : Nat → Nat := fun k => [1, 13, 9, 15, 3, 5, 10, 11].getD k 0

/-- Inverse twiddle table for N = 8, q = 17. -/
def psiInvTable : Nat → Nat := fun k => [1, 4, 2, 8, 6, 7, 12, 14].getD k 0

/-- A concrete coefficient vector for N = 8, q = 17. -/
def vTable : Nat → Nat := fun j => [3, 5, 0, 0, 0, 0, 0, 0].getD j 0

theorem C2_witness :
    InvNTT (2 ^ 3) psiInvTable 15 17 (MRedParams 17)
      (NTT (2 ^ 3) psiTable 17 (MRedParams 17) (BRedParams 17) vTable) 1 = vTable 1 :=
  C2_ntt_invntt_roundtrip 3 17 (MRedParams 17) 15 psiTable psiInvTable vTable
    (by decide) (by decide) (by decide) (by decide) (by decide) (by decide)
    (by decide) (by decide) (by decide) 1 (by decide)

/-- One inverse pass keeps the lazy 2q bound. -/
theorem invNttStage_bound (N m t : Nat) (psiInv : Nat → Nat) (q qinv : Nat)
    (hq0 : 0 < q) (h4q : 4 * q < 2 ^ 64) (hqi : q * qinv % 2 ^ 64 = 1)
    (ht : 0 < t) (hN : N = 2 * m * t) (hm : 1 ≤ m)
    (hpsiInv : ∀ k, 1 ≤ k → k < N → psiInv k < q)
    (v : Nat → Nat) (hv : ∀ j, j < N → v j ≤ 2 * q) :
    ∀ j, j < N → invNttStage N m psiInv q qinv v j ≤ 2 * q := by
  intro j hj
  have htN : N / (2 * m) = t := by
    rw [hN]
    exact Nat.mul_div_cancel_left t (by omega)
  obtain ⟨him, hX, hY⟩ := stage_pair_decomp t m j N ht hN hj
  have h2mN : 2 * m ≤ N := by
    rw [hN]
    calc 2 * m = 2 * m * 1 := by ring
      _ ≤ 2 * m * t := Nat.mul_le_mul_left _ ht
  have hk1 : 1 ≤ m + j / (2 * t) := le_trans hm (Nat.le_add_right m _)
  have hk2 : m + j / (2 * t) < N := by
    have hmm : m + m ≤ N := by omega
    exact lt_of_lt_of_le (Nat.add_lt_add_left him m) hmm
  have hpsik := hpsiInv _ hk1 hk2
  unfold invNttStage
  rw [htN]
  rcases Nat.lt_or_ge (j % (2 * t)) t with hpos | hpos
  · obtain ⟨hjt, -, -⟩ := hX hpos
    rw [if_pos hpos]
    exact ((InvButterfly_spec (v j) (v (j + t)) (psiInv (m + j / (2 * t))) q qinv hq0 h4q
      hqi hpsik (hv j hj) (hv (j + t) hjt)).1).1
  · obtain ⟨hjt, -, -⟩ := hY hpos
    rw [if_neg (Nat.not_lt.mpr hpos)]
    exact ((InvButterfly_spec (v (j - t)) (v j) (psiInv (m + j / (2 * t))) q qinv hq0 h4q
      hqi hpsik (hv (j - t) (by omega)) (hv j hj)).1).2

/-- All inverse passes keep the lazy 2q bound. -/
theorem invNttStages_bound (N : Nat) (psiInv : Nat → Nat) (q qinv : Nat)
    (hq0 : 0 < q) (h4q : 4 * q < 2 ^ 64) (hqi : q * qinv % 2 ^ 64 = 1)
    (hpsiInv : ∀ k, 1 ≤ k → k < N → psiInv k < q) :
    ∀ ms : List Nat, (∀ m ∈ ms, 1 ≤ m ∧ ∃ t, 0 < t ∧ N = 2 * m * t) →
    ∀ v, (∀ j, j < N → v j ≤ 2 * q) →
    ∀ j, j < N → invNttStages N psiInv q qinv ms v j ≤ 2 * q := by
  intro ms
  induction ms with
  | nil => intro _ v hv j hj; exact hv j hj
  | cons m ms ih =>
      intro hvalid v hv j hj
      obtain ⟨hm, t, ht, hN⟩ := hvalid m (List.mem_cons_self m ms)
      show invNttStages N psiInv q qinv ms (invNttStage N m psiInv q qinv v) j ≤ 2 * q
      exact ih (fun m' hm' => hvalid m' (List.mem_cons_of_mem m hm'))
        (invNttStage N m psiInv q qinv v)
        (invNttStage_bound N m t psiInv q qinv hq0 h4q hqi ht hN hm hpsiInv v hv) j hj

/-- The forward schedule for N = 8 is the three stage sizes 1, 2, 4. -/
theorem stageList_eight : stageList (2 ^ 3) = [1, 2, 4] := by
  unfold stageList
  rw [Nat.log2_eq_log_two, Nat.log_pow (by norm_num)]
  rfl

/-- C6 counterexample: the claimed lazy bound [0, 2q) on intermediate
butterfly values is false. At N = 8, q = 17, with every input coefficient
equal to 16 (all in [0, q)), after the first forward stage (stage size 1,
the first entry of the schedule) coefficient 4 equals 46, which is at least
2q = 34. -/
theorem C6_counterexample :
    ¬ (∀ j < 2 ^ 3, nttStages (2 ^ 3) psiTable 17 (MRedParams 17)
        ((stageList (2 ^ 3)).take 1) (fun _ => 16) j < 2 * 17) := by
  rw [stageList_eight]
  decide

/-- C6 (amended): for coefficients in [0, q) and valid twiddle tables, every
prefix of forward stages keeps intermediate butterfly values in [0, 4q) — the
correct lazy bound is 4q, not the 2q stated by the spec — the single final
BRedAdd pass of NTT returns every output coefficient in [0, q), and InvNTT,
which finishes by multiplying every coefficient by nttNInv via MRed, returns
every output coefficient in [0, q). -/
theorem C6_lazy_bounds (L q qinv nInv : Nat) (psi psiInv v w : Nat → Nat)
    (hqi : q * qinv % 2 ^ 64 = 1) (h4q : 4 * q < 2 ^ 64) (hq1 : 1 < q)
    (hpsi : ∀ k < 2 ^ L, 1 ≤ k → psi k < q)
    (hpsiInv : ∀ k < 2 ^ L, 1 ≤ k → psiInv k < q)
    (hnInv : nInv < q)
    (hv : ∀ j < 2 ^ L, v j < q) (hw : ∀ j < 2 ^ L, w j < q) :
    (∀ ms ms2 : List Nat, stageList (2 ^ L) = ms ++ ms2 →
      ∀ j < 2 ^ L, nttStages (2 ^ L) psi q qinv ms v j < 4 * q) ∧
    (∀ j < 2 ^ L, NTT (2 ^ L) psi q qinv (BRedParams q) v j < q) ∧
    (∀ j < 2 ^ L, InvNTT (2 ^ L) psiInv nInv q qinv w j < q) := by
  have hq0 : 0 < q := by omega
  have hq63 : q ≤ 2 ^ 63 := by omega
  have h2q : 2 * q ≤ 2 ^ 64 := by omega
  have hv4 : ∀ j, j < 2 ^ L → v j < 4 * q := by
    intro j hj
    have := hv j hj
    omega
  have hprefix : ∀ ms ms2 : List Nat, stageList (2 ^ L) = ms ++ ms2 →
      ∀ j, j < 2 ^ L → nttStages (2 ^ L) psi q qinv ms v j < 4 * q := by
    intro ms ms2 hms j hj
    have hvalid : ∀ m ∈ ms, 1 ≤ m ∧ ∃ t, 0 < t ∧ 2 ^ L = 2 * m * t := by
      intro m hm
      exact stageList_valid L m (by rw [hms]; exact List.mem_append.mpr (Or.inl hm))
    exact nttStages_bound (2 ^ L) psi q qinv hq0 h4q hqi
      (fun k h1 h2 => hpsi k h2 h1) ms hvalid v hv4 j hj
  refine ⟨fun ms ms2 hms j hj => hprefix ms ms2 hms j hj, ?_, ?_⟩
  · intro j hj
    have hS := hprefix (stageList (2 ^ L)) [] (by rw [List.append_nil]) j hj
    have hred := BRedAdd_correct (nttStages (2 ^ L) psi q qinv (stageList (2 ^ L)) v j) q
      hq1 hq63 (lt_trans hS h4q)
    show BRedAdd (nttStages (2 ^ L) psi q qinv (stageList (2 ^ L)) v j) q (BRedParams q) < q
    rw [hred]
    exact Nat.mod_lt _ hq0
  · intro j hj
    have hw2 : ∀ j', j' < 2 ^ L → w j' ≤ 2 * q := by
      intro j' hj'
      have := hw j' hj'
      omega
    have hvalidrev : ∀ m ∈ (stageList (2 ^ L)).reverse,
        1 ≤ m ∧ ∃ t, 0 < t ∧ 2 ^ L = 2 * m * t := by
      intro m hm
      exact stageList_valid L m (List.mem_reverse.mp hm)
    have hub := invNttStages_bound (2 ^ L) psiInv q qinv hq0 h4q hqi
      (fun k h1 h2 => hpsiInv k h2 h1) (stageList (2 ^ L)).reverse hvalidrev w hw2 j hj
    have hxy : invNttStages (2 ^ L) psiInv q qinv (stageList (2 ^ L)).reverse w j * nInv
        < 2 ^ 64 * q := by
      have h1 : invNttStages (2 ^ L) psiInv q qinv (stageList (2 ^ L)).reverse w j * nInv
          ≤ 2 * q * nInv := Nat.mul_le_mul_right _ hub
      have h2 : 2 * q * nInv < 2 * q * q := mul_lt_mul_of_pos_left hnInv (by omega)
      have h3 : 2 * q * q ≤ 2 ^ 64 * q := Nat.mul_le_mul_right q h2q
      exact lt_of_le_of_lt h1 (lt_of_lt_of_le h2 h3)
    exact (MRed_spec _ nInv q qinv hq0 h2q hqi hxy).1

theorem C6_witness :
    NTT (2 ^ 3) psiTable 17 (MRedParams 17) (BRedParams 17) vTable 0 < 17 ∧
    InvNTT (2 ^ 3) psiInvTable 15 17 (MRedParams 17) vTable 0 < 17 := by
  have h := C6_lazy_bounds 3 17 (MRedParams 17) 15 psiTable psiInvTable vTable vTable
    (by decide) (by decide) (by decide) (by decide) (by decide) (by decide)
    (by decide) (by decide)
  exact ⟨h.2.1 0 (by decide), h.2.2 0 (by decide)⟩

/-- Per-coefficient computation of `func (r *RingQP) ExtendBasisSmallNormAndCenter
(polyInQ *ring.Poly, levelP int, polyOutQ, polyOutP *ring.Poly)`: with
Q = RingQ.Modulus[0] and QHalf = Q >> 1, the inner loops set
polyOutP.Coeffs[i][j] = (coeff*sign) | (pi-coeff)*(sign^1), where coeff is
polyInQ.Coeffs[0][j], conditionally replaced by Q - coeff with sign flipped to
0 when coeff > QHalf. pmod i is RingP.Modulus[i]; uint64 subtraction wraps
modulo 2^64; the Go ^ on sign is bitwise xor and | is bitwise or. -/
def ExtendBasisSmallNormAndCenter (Q : Nat) (pmod vin : Nat → Nat) (i j : Nat) : Nat :=
  let coeff0 := vin j
  let coeff := if Q / 2 < coeff0 then (Q + (2 ^ 64 - coeff0)) % 2 ^ 64 else coeff0
  let sign : Nat := if Q / 2 < coeff0 then 0 else 1
  coeff * sign ||| ((pmod i + (2 ^ 64 - coeff)) % 2 ^ 64) * (sign ^^^ 1)

/-- C7: ExtendBasisSmallNormAndCenter maps each input coefficient c in [0, Q)
to its centered representative in every P limb: the branch-free select writes
c itself when c ≤ Q/2, and pi - (Q - c) when c > Q/2, provided the limb pi is
at least Q/2 (so the uint64 subtraction pi - coeff cannot wrap). -/
theorem C7_extend_basis_small_norm_center (Q : Nat) (pmod vin : Nat → Nat) (i j : Nat)
    (hQ : 0 < Q) (hQ64 : Q < 2 ^ 64) (hpi : pmod i < 2 ^ 64)
    (hQpi : Q / 2 ≤ pmod i) (hc : vin j < Q) :
    ExtendBasisSmallNormAndCenter Q pmod vin i j =
      if vin j ≤ Q / 2 then vin j else pmod i - (Q - vin j) := by
  rcases Nat.lt_or_ge (Q / 2) (vin j) with hgt | hle
  · have hcoeff : (Q + (2 ^ 64 - vin j)) % 2 ^ 64 = Q - vin j := by omega
    have hinner : (pmod i + (2 ^ 64 - (Q - vin j))) % 2 ^ 64 = pmod i - (Q - vin j) := by
      omega
    simp only [ExtendBasisSmallNormAndCenter]
    rw [if_pos hgt, if_pos hgt, hcoeff, hinner, if_neg (by omega)]
    simp
  · simp only [ExtendBasisSmallNormAndCenter]
    rw [if_neg (by omega), if_neg (by omega), if_pos (by omega)]
    simp

theorem C7_witness :
    ExtendBasisSmallNormAndCenter 17 (fun _ => 19) (fun _ => 12) 0 0 = 14 := by
  have h := C7_extend_basis_small_norm_center 17 (fun _ => 19) (fun _ => 12) 0 0
    (by decide) (by decide) (by decide) (by decide) (by decide)
  rw [h]
  decide

/-- Modelled from the spec: the modular inverse used by CRT reconstruction,
computed from the extended Euclidean coefficient. -/
def invMod (a n : Nat) : Nat :=
  ((Nat.gcdA a n % (n : Int) + (n : Int)) % (n : Int)).toNat

/-- invMod produces a genuine inverse for coprime arguments. -/
theorem invMod_spec (a n : Nat) (hn : 1 < n) (h : Nat.gcd a n = 1) :
    a * invMod a n % n = 1 := by
  have hnz : (n : Int) ≠ 0 := Int.natCast_ne_zero.mpr (by omega)
  have hg := Nat.gcd_eq_gcd_ab a n
  rw [h] at hg
  have hinv : (invMod a n : Int) = Nat.gcdA a n % (n : Int) := by
    unfold invMod
    rw [Int.toNat_of_nonneg (Int.emod_nonneg _ hnz)]
    rw [show Nat.gcdA a n % (n : Int) + (n : Int) =
      Nat.gcdA a n % (n : Int) + (n : Int) * 1 by ring]
    rw [Int.add_mul_emod_self_left, Int.emod_emod_of_dvd _ (dvd_refl _)]
  have hcalc : ((a * invMod a n : Nat) : Int) % (n : Int) = 1 := by
    push_cast
    rw [hinv]
    have h5 : ((a : Int) * (Nat.gcdA a n % (n : Int))) % (n : Int) =
        ((a : Int) * Nat.gcdA a n) % (n : Int) := by
      conv_rhs => rw [Int.mul_emod]
      conv_lhs => rw [Int.mul_emod]
      rw [Int.emod_emod_of_dvd _ (dvd_refl _)]
    rw [h5]
    have h6 : (a : Int) * Nat.gcdA a n = 1 - (n : Int) * Nat.gcdB a n := by
      have hg1 : (1 : Int) = a * Nat.gcdA a n + n * Nat.gcdB a n := by
        exact_mod_cast hg
      linarith
    rw [h6, Int.sub_emod, Int.mul_emod_right, Int.sub_zero,
      Int.emod_emod_of_dvd _ (dvd_refl _)]
    exact Int.emod_eq_of_lt (by omega) (by exact_mod_cast hn)
  have hfin : ((a * invMod a n % n : Nat) : Int) = ((1 : Nat) : Int) := by
    push_cast
    exact hcalc
  exact_mod_cast hfin

/-- Two-modulus CRT reconstruction is exact for coprime moduli. -/
theorem crt2 (q0 q1 x : Nat) (hcop : Nat.Coprime q0 q1) (h0 : 1 < q0) (h1 : 1 < q1)
    (hx : x < q0 * q1) :
    (x % q0 * q1 * invMod q1 q0 + x % q1 * q0 * invMod q0 q1) % (q0 * q1) = x := by
  have hc01 : Nat.gcd q1 q0 = 1 := Nat.Coprime.symm hcop
  have hA := invMod_spec q1 q0 h0 hc01
  have hB := invMod_spec q0 q1 h1 hcop
  have hm0 : x % q0 * q1 * invMod q1 q0 + x % q1 * q0 * invMod q0 q1 ≡ x [MOD q0] := by
    have hA1 : q1 * invMod q1 q0 ≡ 1 [MOD q0] := by
      show q1 * invMod q1 q0 % q0 = 1 % q0
      rw [hA, Nat.mod_eq_of_lt h0]
    have e1 : x % q0 * q1 * invMod q1 q0 ≡ x % q0 * 1 [MOD q0] := by
      have hre : x % q0 * q1 * invMod q1 q0 = x % q0 * (q1 * invMod q1 q0) := by ring
      rw [hre]
      exact Nat.ModEq.mul_left _ hA1
    have e2 : x % q1 * q0 * invMod q0 q1 ≡ 0 [MOD q0] := by
      have hre : x % q1 * q0 * invMod q0 q1 = q0 * (x % q1 * invMod q0 q1) := by ring
      rw [hre]
      exact Nat.modEq_zero_iff_dvd.mpr ⟨_, rfl⟩
    calc x % q0 * q1 * invMod q1 q0 + x % q1 * q0 * invMod q0 q1
        ≡ x % q0 * 1 + 0 [MOD q0] := Nat.ModEq.add e1 e2
      _ = x % q0 := by ring
      _ ≡ x [MOD q0] := Nat.mod_modEq x q0
  have hm1 : x % q0 * q1 * invMod q1 q0 + x % q1 * q0 * invMod q0 q1 ≡ x [MOD q1] := by
    have hB1 : q0 * invMod q0 q1 ≡ 1 [MOD q1] := by
      show q0 * invMod q0 q1 % q1 = 1 % q1
      rw [hB, Nat.mod_eq_of_lt h1]
    have e1 : x % q1 * q0 * invMod q0 q1 ≡ x % q1 * 1 [MOD q1] := by
      have hre : x % q1 * q0 * invMod q0 q1 = x % q1 * (q0 * invMod q0 q1) := by ring
      rw [hre]
      exact Nat.ModEq.mul_left _ hB1
    have e2 : x % q0 * q1 * invMod q1 q0 ≡ 0 [MOD q1] := by
      have hre : x % q0 * q1 * invMod q1 q0 = q1 * (x % q0 * invMod q1 q0) := by ring
      rw [hre]
      exact Nat.modEq_zero_iff_dvd.mpr ⟨_, rfl⟩
    calc x % q0 * q1 * invMod q1 q0 + x % q1 * q0 * invMod q0 q1
        ≡ 0 + x % q1 * 1 [MOD q1] := Nat.ModEq.add e2 e1
      _ = x % q1 := by ring
      _ ≡ x [MOD q1] := Nat.mod_modEq x q1
  have hmul := (Nat.modEq_and_modEq_iff_modEq_mul hcop).mp ⟨hm0, hm1⟩
  have hfin : (x % q0 * q1 * invMod q1 q0 + x % q1 * q0 * invMod q0 q1) % (q0 * q1) =
      x % (q0 * q1) := hmul
  rw [Nat.mod_eq_of_lt hx] at hfin
  exact hfin

/-- Modelled from the spec: `ModUpSplitQP` of the fast basis extender extends a
polynomial coefficient represented by its CRT residues in basis Q into each
limb of a disjoint basis P. For the representative two-limb basis
Q = [q0, q1] of the spec, the canonical CRT lift of the residues (r0, r1) in
[0, q0*q1) is reduced modulo each P limb. -/
def ModUpSplitQP (q0 q1 : Nat) (P : List Nat) (r0 r1 : Nat) : List Nat :=
  P.map (fun pj =>
    (r0 * q1 * invMod q1 q0 + r1 * q0 * invMod q0 q1) % (q0 * q1) % pj)

/-- C3: for a coefficient p in [0, q0*q1) given by its residues in the
two-limb basis Q = [q0, q1] (coprime moduli), ModUpSplitQP produces in every
limb pj of the extension basis P exactly p mod pj: the CRT reconstruction
over P equals p with no off-by-a-multiple-of-the-Q-product error. -/
theorem C3_modup_split_qp_exact (q0 q1 x : Nat) (P : List Nat)
    (hcop : Nat.Coprime q0 q1) (h0 : 1 < q0) (h1 : 1 < q1) (hx : x < q0 * q1) :
    ModUpSplitQP q0 q1 P (x % q0) (x % q1) = P.map (fun pj => x % pj) := by
  simp only [ModUpSplitQP, crt2 q0 q1 x hcop h0 h1 hx]

theorem C3_witness : ModUpSplitQP 3 5 [11] (7 % 3) (7 % 5) = [7] := by
  have h := C3_modup_split_qp_exact 3 5 7 [11] (by decide) (by decide) (by decide)
    (by decide)
  rw [h]
  decide

/-- Modelled from the spec: `DivRound` divides a coefficient by a modulus and
rounds to the nearest integer (nearest is unambiguous for the odd moduli
used, where q / 2 rounds the half down). -/
def DivRound (x q : Nat) : Nat := (x + q / 2) / q

/-- Modelled from the spec: `DivRoundByLastModulusMany(p, k)` divides the
polynomial by each of the last k moduli in turn, rounding at each step,
starting from the very last modulus — the loop
`for j := 0; j < nbRescals; j++ { DivRound(..., Modulus[len-1-j], ...) }`
of the reference computation. -/
def DivRoundByLastModulusMany (moduli : List Nat) (k x : Nat) : Nat :=
  ((moduli.drop (moduli.length - k)).reverse).foldl DivRound x

/-- Rounded division composes exactly for odd divisors. -/
theorem DivRound_DivRound (x a b : Nat) (ha : a % 2 = 1) (hb : b % 2 = 1) :
    DivRound (DivRound x a) b = DivRound x (a * b) := by
  have ha0 : 0 < a := by omega
  unfold DivRound
  have h1 : (x + a / 2) / a + b / 2 = (x + a / 2 + b / 2 * a) / a :=
    (Nat.add_mul_div_right (x + a / 2) (b / 2) ha0).symm
  rw [h1, Nat.div_div_eq_div_mul]
  congr 1
  obtain ⟨s, rfl⟩ : ∃ s, a = 2 * s + 1 := ⟨a / 2, by omega⟩
  obtain ⟨t, rfl⟩ : ∃ t, b = 2 * t + 1 := ⟨b / 2, by omega⟩
  have h2 : (2 * s + 1) / 2 = s := by omega
  have h3 : (2 * t + 1) / 2 = t := by omega
  have h4 : (2 * s + 1) * (2 * t + 1) / 2 = 2 * (s * t) + s + t := by
    have hexp : (2 * s + 1) * (2 * t + 1) = 2 * (2 * (s * t) + s + t) + 1 := by ring
    rw [hexp]
    omega
  rw [h2, h3, h4]
  ring

/-- A product of odd numbers is odd. -/
theorem prod_odd (qs : List Nat) (h : ∀ q ∈ qs, q % 2 = 1) : qs.prod % 2 = 1 := by
  induction qs with
  | nil => rfl
  | cons q rest ih =>
      rw [List.prod_cons, Nat.mul_mod, h q (List.mem_cons_self q rest),
        ih (fun q' hq' => h q' (List.mem_cons_of_mem q hq'))]

/-- Dividing-and-rounding by each modulus of a list in reverse order equals a
single rounded division by the product, for odd moduli. -/
theorem divround_fold (qs : List Nat) (x : Nat) (hodd : ∀ q ∈ qs, q % 2 = 1) :
    qs.reverse.foldl DivRound x = DivRound x qs.prod := by
  induction qs with
  | nil =>
      show x = DivRound x 1
      unfold DivRound
      omega
  | cons q rest ih =>
      rw [List.reverse_cons, List.foldl_append]
      simp only [List.foldl_cons, List.foldl_nil]
      rw [ih (fun q' hq' => hodd q' (List.mem_cons_of_mem q hq'))]
      rw [DivRound_DivRound x rest.prod q
        (prod_odd rest (fun q' hq' => hodd q' (List.mem_cons_of_mem q hq')))
        (hodd q (List.mem_cons_self q rest))]
      rw [List.prod_cons, Nat.mul_comm q rest.prod]

/-- C4: for a coefficient p in an RNS basis with odd moduli,
DivRoundByLastModulusMany(p, k) — iterated rounded division by each of the k
removed last moduli — leaves exactly round(p / prod of removed moduli), and
hence in each remaining limb qj exactly that value mod qj, matching the
big-integer reference division. -/
theorem C4_divround_by_last_modulus_many (moduli : List Nat) (k x : Nat)
    (hodd : ∀ q ∈ moduli.drop (moduli.length - k), q % 2 = 1) :
    DivRoundByLastModulusMany moduli k x =
      DivRound x (moduli.drop (moduli.length - k)).prod ∧
    ∀ qj ∈ moduli.take (moduli.length - k),
      DivRoundByLastModulusMany moduli k x % qj =
        DivRound x (moduli.drop (moduli.length - k)).prod % qj := by
  have hmain : DivRoundByLastModulusMany moduli k x =
      DivRound x (moduli.drop (moduli.length - k)).prod :=
    divround_fold (moduli.drop (moduli.length - k)) x hodd
  exact ⟨hmain, fun qj _ => by rw [hmain]⟩

theorem C4_witness : DivRoundByLastModulusMany [11, 3, 5] 2 100 = DivRound 100 15 :=
  (C4_divround_by_last_modulus_many [11, 3, 5] 2 100 (by decide)).1

/-- Error outcomes of the rotation operations of the dbfv evaluator. -/
inductive RotErr where
  | degreeMismatch
  | badDegree
  | rowKeyMissing
  | colKeysMissing

/-- The loop `for i := uint64(1); i < n>>1; i <<= 1` visiting the powers of
two below half the ring degree, with enough fuel to terminate. -/
def pow2Below (fuel i half : Nat) : List Nat :=
  match fuel with
  | 0 => []
  | fuel + 1 => if i < half then i :: pow2Below fuel (2 * i) half else []

/-- The check of `RotateColumns` that every left and right power-of-two
rotation key below n/2 has been generated. -/
def hasPow2Rotations (n : Nat) (colL colR : Nat → Bool) : Bool :=
  (pow2Below n 1 (n / 2)).all (fun i => colL i && colR i)

/-- Control flow of `func (evaluator *Evaluator) RotateColumns(c0 BfvElement,
k uint64, evakey *RotationKeys, c1 BfvElement) (err error)`: k is masked to
k & (n>>1 - 1); k = 0 copies and succeeds; mismatched or large degrees error;
a degree-0 ciphertext is permuted without consulting any key; a degree-1
ciphertext requires the specific key evakey_rot_col_L[k] or, failing that,
the complete set of power-of-two keys, else it errors. colL and colR report
whether evakey_rot_col_L[i] and evakey_rot_col_R[i] are non-nil. -/
def RotateColumns (n k c0deg c1deg : Nat) (colL colR : Nat → Bool) :
    Except RotErr Unit :=
  let kq := k &&& (n / 2 - 1)
  if kq = 0 then Except.ok ()
  else if c1deg ≠ c0deg then Except.error RotErr.degreeMismatch
  else if 1 < c0deg then Except.error RotErr.badDegree
  else if c0deg = 0 then Except.ok ()
  else if colL kq then Except.ok ()
  else if hasPow2Rotations n colL colR then Except.ok ()
  else Except.error RotErr.colKeysMissing

/-- Control flow of `func (evaluator *Evaluator) RotateRows(c0 BfvElement,
evakey *RotationKeys, c1 BfvElement) error`: mismatched or large degrees
error, then a nil evakey_rot_row errors unconditionally before any key is
used. rowKey reports whether evakey.evakey_rot_row is non-nil. -/
def RotateRows (c0deg c1deg : Nat) (rowKey : Bool) : Except RotErr Unit :=
  if c1deg ≠ c0deg then Except.error RotErr.degreeMismatch
  else if 1 < c0deg then Except.error RotErr.badDegree
  else if !rowKey then Except.error RotErr.rowKeyMissing
  else Except.ok ()

/-- C8 counterexample: the claim that RotateColumns errors whenever neither
the specific key nor the full power-of-two key set exists is false for
degree-0 ciphertexts: at n = 8, a requested nonzero rotation k = 1 of a
degree-0 ciphertext succeeds with no rotation keys generated at all,
because the degree-0 branch permutes the single polynomial without ever
consulting the key material. -/
theorem C8_counterexample :
    RotateColumns 8 1 0 0 (fun _ => false) (fun _ => false) = Except.ok () := rfl

/-- C8 (amended): for degree-1 ciphertexts, RotateColumns returns an error on
a masked-nonzero rotation whenever the specific rotation key is absent and
the power-of-two key set is incomplete; and RotateRows returns an error
whenever the row-rotation key is nil, for every pair of input degrees. -/
theorem C8_missing_key_errors (n k : Nat) (colL colR : Nat → Bool) :
    (∀ c0deg c1deg, c0deg = 1 → c1deg = 1 →
      k &&& (n / 2 - 1) ≠ 0 →
      colL (k &&& (n / 2 - 1)) = false →
      hasPow2Rotations n colL colR = false →
      RotateColumns n k c0deg c1deg colL colR = Except.error RotErr.colKeysMissing) ∧
    (∀ c0deg c1deg rowKey, rowKey = false →
      ∃ e, RotateRows c0deg c1deg rowKey = Except.error e) := by
  constructor
  · intro c0deg c1deg h0 h1 hk hspec hpow2
    subst h0
    subst h1
    simp only [RotateColumns]
    rw [if_neg hk]
    simp [hspec, hpow2]
  · intro c0deg c1deg rowKey hrow
    subst hrow
    by_cases h1 : c1deg ≠ c0deg
    · exact ⟨RotErr.degreeMismatch, by simp only [RotateRows]; rw [if_pos h1]⟩
    · by_cases h2 : 1 < c0deg
      · exact ⟨RotErr.badDegree, by simp only [RotateRows]; rw [if_neg h1, if_pos h2]⟩
      · exact ⟨RotErr.rowKeyMissing, by
          simp only [RotateRows]
          rw [if_neg h1, if_neg h2, if_pos (by simp)]⟩

theorem C8_witness :
    RotateColumns 8 3 1 1 (fun _ => false) (fun _ => false) =
      Except.error RotErr.colKeysMissing ∧
    ∃ e, RotateRows 1 1 false = Except.error e := by
  have h := C8_missing_key_errors 8 3 (fun _ => false) (fun _ => false)
  exact ⟨h.1 1 1 rfl rfl (by decide) rfl (by decide), h.2 1 1 false rfl⟩

/-- One iteration of the inner accumulation loop of `func switchKeys(...)` as
seen by a single coefficient of one output accumulator and its limb modulus
q: MulCoeffsMontgomeryAndAddNoMod adds a lazily-unreduced term d to the
accumulator; `if reduce&7 == 7` then Reduce (a full mod-q reduction) runs,
using the pre-increment counter value; then `reduce += 1` with uint64
wrap-around. -/
def switchKeysStep (q : Nat) (st : Nat × Nat) (d : Nat) : Nat × Nat :=
  let acc := st.1 + d
  (if st.2 % 8 = 7 then acc % q else acc, (st.2 + 1) % 2 ^ 64)

/-- `func switchKeys(evaluator *Evaluator, c0, c1, c2 *ring.Poly, evakey
*SwitchingKey, cOut *Ciphertext)` restricted to one coefficient of one
output accumulator: ds lists the per-iteration multiply-accumulate
contributions over all (i, j) loop iterations, c is the accumulator value on
entry, reduce starts at 0, and after the loops `if (reduce-1)&7 != 7` (a
uint64 wrapping subtraction) triggers one final Reduce. -/
def switchKeys (q : Nat) (ds : List Nat) (c : Nat) : Nat :=
  if ((ds.foldl (switchKeysStep q) (c, 0)).2 + (2 ^ 64 - 1)) % 2 ^ 64 % 8 ≠ 7 then
    (ds.foldl (switchKeysStep q) (c, 0)).1 % q
  else (ds.foldl (switchKeysStep q) (c, 0)).1

/-- The reduce counter after the loop equals the iteration count mod 2^64. -/
theorem switchKeys_counter (q : Nat) (ds : List Nat) :
    ∀ c r, r < 2 ^ 64 →
      (ds.foldl (switchKeysStep q) (c, r)).2 = (r + ds.length) % 2 ^ 64 := by
  induction ds with
  | nil =>
      intro c r hr
      simp only [List.foldl_nil, List.length_nil]
      omega
  | cons d ds ih =>
      intro c r hr
      rw [List.foldl_cons]
      have hstep : switchKeysStep q (c, r) d =
          (if r % 8 = 7 then (c + d) % q else c + d, (r + 1) % 2 ^ 64) := rfl
      rw [hstep, ih _ _ (Nat.mod_lt _ (by norm_num)), List.length_cons,
        Nat.mod_add_mod]
      omega

/-- When the final iteration fires the in-loop reduction, the fold result is
already below q. -/
theorem switchKeys_last_reduced (q : Nat) (ds : List Nat) (d : Nat) (c r : Nat)
    (hq : 0 < q) (hr : (ds.foldl (switchKeysStep q) (c, r)).2 % 8 = 7) :
    ((ds ++ [d]).foldl (switchKeysStep q) (c, r)).1 < q := by
  rw [List.foldl_append, List.foldl_cons, List.foldl_nil]
  show (if (ds.foldl (switchKeysStep q) (c, r)).2 % 8 = 7
      then ((ds.foldl (switchKeysStep q) (c, r)).1 + d) % q
      else (ds.foldl (switchKeysStep q) (c, r)).1 + d) < q
  rw [if_pos hr]
  exact Nat.mod_lt _ hq

/-- C10: for every input whose switching key contributes at least one
decomposition digit (ds nonempty, with fewer than 2^64 total iterations, as
in any real execution), every coefficient of the output accumulators of
switchKeys is fully reduced into [0, q) for its limb modulus q: the loop
reduces after every 8th lazy multiply-accumulate and the final wrapped-
counter check reduces exactly when the last iteration did not. -/
theorem C10_switch_keys_reduced (q : Nat) (ds : List Nat) (c : Nat)
    (hq : 0 < q) (hne : ds ≠ []) (hlen : ds.length < 2 ^ 64) :
    switchKeys q ds c < q := by
  rcases List.eq_nil_or_concat ds with h | ⟨ds0, d, rfl⟩
  · exact absurd h hne
  · have hconcat : ds0.concat d = ds0 ++ [d] := List.concat_eq_append ds0 d
    rw [hconcat] at hlen ⊢
    rw [List.length_append, List.length_cons, List.length_nil] at hlen
    unfold switchKeys
    have hc0 := switchKeys_counter q ds0 c 0 (by norm_num)
    have hcall := switchKeys_counter q (ds0 ++ [d]) c 0 (by norm_num)
    rw [List.length_append, List.length_cons, List.length_nil] at hcall
    have hcnt : ((ds0 ++ [d]).foldl (switchKeysStep q) (c, 0)).2 = ds0.length + 1 := by
      rw [hcall]
      omega
    by_cases hlast : ds0.length % 8 = 7
    · have hred : ((ds0 ++ [d]).foldl (switchKeysStep q) (c, 0)).1 < q := by
        refine switchKeys_last_reduced q ds0 d c 0 hq ?_
        rw [hc0]
        omega
      rw [if_neg (by rw [hcnt]; omega)]
      exact hred
    · rw [if_pos (by rw [hcnt]; omega)]
      exact Nat.mod_lt _ hq

theorem C10_witness : switchKeys 17 [100] 50 < 17 :=
  C10_switch_keys_reduced 17 [100] 50 (by decide) (by decide) (by decide)

/-- A heap of polynomial coefficient arrays for the mkrlwe package: next is
the next fresh address, mem the contents at every address.  ring.NewPoly and
CopyNew allocate fresh polynomials; in-place ring operations write a named
destination polynomial. -/
structure HState where
  next : Nat
  mem : Nat → List Nat

/-- Read the coefficients of the polynomial at address a. -/
def hread (s : HState) (a : Nat) : List Nat := s.mem a

/-- Write coefficients p to the polynomial at address a. -/
def hwrite (s : HState) (a : Nat) (p : List Nat) : HState :=
  ⟨s.next, fun b => if b = a then p else s.mem b⟩

/-- Allocate a fresh polynomial holding p, as ring.NewPoly followed by an
in-place write of its contents does. -/
def allocWrite (s : HState) (p : List Nat) : Nat × HState :=
  (s.next, ⟨s.next + 1, fun b => if b = s.next then p else s.mem b⟩)

/-- t preserves every polynomial that was already allocated in s. -/
def Frames (s t : HState) : Prop :=
  s.next ≤ t.next ∧ ∀ a, a < s.next → t.mem a = s.mem a

theorem frames_rfl (s : HState) : Frames s s := ⟨le_refl _, fun _ _ => rfl⟩

theorem frames_trans {s t u : HState} (h1 : Frames s t) (h2 : Frames t u) :
    Frames s u :=
  ⟨le_trans h1.1 h2.1, fun a ha => by
    rw [h2.2 a (lt_of_lt_of_le ha h1.1), h1.2 a ha]⟩

theorem frames_allocWrite {s t : HState} (h : Frames s t) (p : List Nat) :
    Frames s (allocWrite t p).2 := by
  refine ⟨le_trans h.1 (Nat.le_succ _), fun a ha => ?_⟩
  show (if a = t.next then p else t.mem a) = s.mem a
  rw [if_neg (by have := h.1; omega), h.2 a ha]

theorem frames_hwrite {s t : HState} (h : Frames s t) {b : Nat}
    (hb : s.next ≤ b) (p : List Nat) : Frames s (hwrite t b p) := by
  refine ⟨h.1, fun a ha => ?_⟩
  show (if a = b then p else t.mem a) = s.mem a
  rw [if_neg (by omega), h.2 a ha]

/-- `CopyNew()` on the polynomial at address src: a fresh polynomial with the
same coefficients. -/
def copyNew (s : HState) (src : Nat) : Nat × HState := allocWrite s (hread s src)

/-- `X.Poly[u].CopyNew()` followed by the reslice
`X.Poly[u].Coeffs = X.Poly[u].Coeffs[...]`: the copy is allocated and then
its own contents are replaced by the view — the original at src is never
written. -/
def copyReslice (view : List Nat → List Nat) (s : HState) (src : Nat) :
    Nat × HState :=
  let r := copyNew s src
  (r.1, hwrite r.2 r.1 (view (hread r.2 r.1)))

theorem frames_copyReslice {s t : HState} (view : List Nat → List Nat)
    (src : Nat) (h : Frames s t) : Frames s (copyReslice view t src).2 := by
  simp only [copyReslice, copyNew]
  exact frames_hwrite (frames_allocWrite h _) h.1 _

/-- One iteration u of the loop of `func prepareEvalKey(...)`: six CopyNew +
reslice pairs, building the Q views (Coeffs[:level+1], modelled rq) and the
P views (Coeffs[modulus:], modelled rp) of the three key components. -/
def peChain (rq rp : List Nat → List Nat) (a0 a1 a2 : Nat) (s : HState) :
    (Nat × Nat × Nat × Nat × Nat × Nat) × HState :=
  let q0 := copyReslice rq s a0
  let q1 := copyReslice rq q0.2 a1
  let q2 := copyReslice rq q1.2 a2
  let p0 := copyReslice rp q2.2 a0
  let p1 := copyReslice rp p0.2 a1
  let p2 := copyReslice rp p1.2 a2
  ((q0.1, q1.1, q2.1, p0.1, p1.1, p2.1), p2.2)

theorem frames_peChain (rq rp : List Nat → List Nat) (a0 a1 a2 : Nat)
    {s t : HState} (h : Frames s t) : Frames s (peChain rq rp a0 a1 a2 t).2 := by
  simp only [peChain]
  exact frames_copyReslice _ _ (frames_copyReslice _ _ (frames_copyReslice _ _
    (frames_copyReslice _ _ (frames_copyReslice _ _ (frames_copyReslice _ _ h)))))

/-- `func prepareEvalKey(i, level, modulus, beta, evaluationKeys)`: for each
u < beta, copy and reslice the three components of evaluation key i. di0,
di1, di2 give the addresses of evaluationKeys[i-1].Key[0/1/2].Poly[u]. -/
def prepareEvalKey (rq rp : List Nat → List Nat) (di0 di1 di2 : Nat → Nat) :
    Nat → HState → List (Nat × Nat × Nat × Nat × Nat × Nat) × HState
  | 0, s => ([], s)
  | u + 1, s =>
    ((prepareEvalKey rq rp di0 di1 di2 u s).1 ++
      [(peChain rq rp (di0 u) (di1 u) (di2 u)
          (prepareEvalKey rq rp di0 di1 di2 u s).2).1],
      (peChain rq rp (di0 u) (di1 u) (di2 u)
          (prepareEvalKey rq rp di0 di1 di2 u s).2).2)

theorem frames_prepareEvalKey (rq rp : List Nat → List Nat)
    (di0 di1 di2 : Nat → Nat) (beta : Nat) {s t : HState} (h : Frames s t) :
    Frames s (prepareEvalKey rq rp di0 di1 di2 beta t).2 := by
  induction beta with
  | zero => exact h
  | succ u ih =>
      simp only [prepareEvalKey]
      exact frames_peChain _ _ _ _ _ ih

/-- One iteration u of the loop of `func preparePublicKey(...)`: two CopyNew
+ reslice pairs of publicKeys[j-1].Key[0].Poly[u]. -/
def pkChain (rq rp : List Nat → List Nat) (a : Nat) (s : HState) :
    (Nat × Nat) × HState :=
  let q0 := copyReslice rq s a
  let p0 := copyReslice rp q0.2 a
  ((q0.1, p0.1), p0.2)

theorem frames_pkChain (rq rp : List Nat → List Nat) (a : Nat) {s t : HState}
    (h : Frames s t) : Frames s (pkChain rq rp a t).2 := by
  simp only [pkChain]
  exact frames_copyReslice _ _ (frames_copyReslice _ _ h)

/-- `func preparePublicKey(j, level, modulus, beta, publicKeys)`. -/
def preparePublicKey (rq rp : List Nat → List Nat) (pkj : Nat → Nat) :
    Nat → HState → List (Nat × Nat) × HState
  | 0, s => ([], s)
  | u + 1, s =>
    ((preparePublicKey rq rp pkj u s).1 ++
      [(pkChain rq rp (pkj u) (preparePublicKey rq rp pkj u s).2).1],
      (pkChain rq rp (pkj u) (preparePublicKey rq rp pkj u s).2).2)

theorem frames_preparePublicKey (rq rp : List Nat → List Nat) (pkj : Nat → Nat)
    (beta : Nat) {s t : HState} (h : Frames s t) :
    Frames s (preparePublicKey rq rp pkj beta t).2 := by
  induction beta with
  | zero => exact h
  | succ u ih =>
      simp only [preparePublicKey]
      exact frames_pkChain _ _ _ ih

/-- Iteration i of the loop of `func GInverse(...)`: polynomialsQ[i] and
polynomialsP[i] are allocated fresh (ring.NewPoly) and then written by
decomposeAndSplitNTT from the contents of p (c2NTT) and invPoly (c2InvNTT).
Modelled from the spec: decomposeAndSplitNTT itself only writes its two
output polynomials; its arithmetic is the opaque pure functions decompQ,
decompP. -/
def gInvChain (decompQ decompP : Nat → List Nat → List Nat → List Nat)
    (p ip i : Nat) (s : HState) : (Nat × Nat) × HState :=
  let q := allocWrite s []
  let pp := allocWrite q.2 []
  let s3 := hwrite pp.2 q.1 (decompQ i (hread pp.2 p) (hread pp.2 ip))
  let s4 := hwrite s3 pp.1 (decompP i (hread s3 p) (hread s3 ip))
  ((q.1, pp.1), s4)

theorem frames_gInvChain (decompQ decompP : Nat → List Nat → List Nat → List Nat)
    (p ip i : Nat) {s t : HState} (h : Frames s t) :
    Frames s (gInvChain decompQ decompP p ip i t).2 := by
  simp only [gInvChain]
  refine frames_hwrite (frames_hwrite (frames_allocWrite (frames_allocWrite h _) _)
    ?_ _) ?_ _
  · exact h.1
  · exact le_trans h.1 (Nat.le_succ _)

/-- The beta loop of `func GInverse(...)`. -/
def gInverseLoop (decompQ decompP : Nat → List Nat → List Nat → List Nat)
    (p ip : Nat) : Nat → HState → List (Nat × Nat) × HState
  | 0, s => ([], s)
  | i + 1, s =>
    ((gInverseLoop decompQ decompP p ip i s).1 ++
      [(gInvChain decompQ decompP p ip i
          (gInverseLoop decompQ decompP p ip i s).2).1],
      (gInvChain decompQ decompP p ip i
          (gInverseLoop decompQ decompP p ip i s).2).2)

theorem frames_gInverseLoop (decompQ decompP : Nat → List Nat → List Nat → List Nat)
    (p ip beta : Nat) {s t : HState} (h : Frames s t) :
    Frames s (gInverseLoop decompQ decompP p ip beta t).2 := by
  induction beta with
  | zero => exact h
  | succ i ih =>
      simp only [gInverseLoop]
      exact frames_gInvChain _ _ _ _ _ ih

/-- `func GInverse(p *ring.Poly, params *rlwe.Parameters, level uint64)`:
invPoly := ringQ.NewPoly() then ringQ.InvNTTLvl(level, p, invPoly), followed
by the beta loop of fresh decomposition polynomials. -/
def GInverse (invntt : List Nat → List Nat)
    (decompQ decompP : Nat → List Nat → List Nat → List Nat)
    (beta p : Nat) (s : HState) : List (Nat × Nat) × HState :=
  let ip := allocWrite s (invntt (hread s p))
  gInverseLoop decompQ decompP p ip.1 beta ip.2

theorem frames_GInverse (invntt : List Nat → List Nat)
    (decompQ decompP : Nat → List Nat → List Nat → List Nat)
    (beta p : Nat) {s t : HState} (h : Frames s t) :
    Frames s (GInverse invntt decompQ decompP beta p t).2 := by
  simp only [GInverse]
  exact frames_gInverseLoop _ _ _ _ _ (frames_allocWrite h _)

/-- Modelled from the spec: DotLvl and Dot compute the dot product of two
decomposed polynomial vectors and return it in a freshly allocated
polynomial; f is the opaque pure arithmetic. -/
def dotAlloc (f : List (List Nat) → List (List Nat) → List Nat)
    (xs ys : List Nat) (s : HState) : Nat × HState :=
  allocWrite s (f (xs.map (hread s)) (ys.map (hread s)))

theorem frames_dotAlloc (f : List (List Nat) → List (List Nat) → List Nat)
    (xs ys : List Nat) {s t : HState} (h : Frames s t) :
    Frames s (dotAlloc f xs ys t).2 :=
  frames_allocWrite h _

/-- First phase of the j loop body of `func Relinearization(...)`:
preparePublicKey, GInverse of cipherParts[i*(k+1)+j] (line 3), and the two
dot products cIJtmpQ := DotLvl(level, decomposedIJQ, pkQ, ringQ) and
cIJtmpP := Dot(decomposedIJP, pkP, ringP). Returns the Q and P decomposition
address lists and the two dot product addresses. -/
def relinInner1 (rq rp invntt : List Nat → List Nat)
    (decompQ decompP : Nat → List Nat → List Nat → List Nat)
    (dotQ dotP : List (List Nat) → List (List Nat) → List Nat)
    (pkj : Nat → Nat) (beta cij : Nat) (s : HState) :
    (List Nat × List Nat × Nat × Nat) × HState :=
  let pkr := preparePublicKey rq rp pkj beta s
  let dij := GInverse invntt decompQ decompP beta cij pkr.2
  let cQ := dotAlloc dotQ (dij.1.map Prod.fst) (pkr.1.map Prod.fst) dij.2
  let cP := dotAlloc dotP (dij.1.map Prod.snd) (pkr.1.map Prod.snd) cQ.2
  ((dij.1.map Prod.fst, dij.1.map Prod.snd, cQ.1, cP.1), cP.2)

theorem frames_relinInner1 (rq rp invntt : List Nat → List Nat)
    (decompQ decompP : Nat → List Nat → List Nat → List Nat)
    (dotQ dotP : List (List Nat) → List (List Nat) → List Nat)
    (pkj : Nat → Nat) (beta cij : Nat) {s t : HState} (h : Frames s t) :
    Frames s (relinInner1 rq rp invntt decompQ decompP dotQ dotP pkj beta cij t).2 := by
  simp only [relinInner1]
  exact frames_dotAlloc _ _ _ (frames_dotAlloc _ _ _
    (frames_GInverse _ _ _ _ _ (frames_preparePublicKey _ _ _ _ h)))

/-- `cIJPrime := ringQ.NewPoly()` written by
`baseconverter.ModDownSplitNTTPQ(level, cIJtmpQ, cIJtmpP, cIJPrime)` (line 4). -/
def relinModDown (moddownF : List Nat → List Nat → List Nat) (cQ cP : Nat)
    (s : HState) : Nat × HState :=
  let cprime := allocWrite s []
  (cprime.1, hwrite cprime.2 cprime.1
    (moddownF (hread cprime.2 cQ) (hread cprime.2 cP)))

theorem frames_relinModDown (moddownF : List Nat → List Nat → List Nat)
    (cQ cP : Nat) {s t : HState} (h : Frames s t) :
    Frames s (relinModDown moddownF cQ cP t).2 := by
  simp only [relinModDown]
  exact frames_hwrite (frames_allocWrite h _) h.1 _

/-- Second decomposition and the four dot products of the j loop body:
GInverse of cIJPrime (line 5) and tmpC0Q, tmpC0P, tmpCiQ, tmpCiP. Returns
(tmpC0Q, tmpCiQ, tmpC0P, tmpCiP). -/
def relinInner2 (invntt : List Nat → List Nat)
    (decompQ decompP : Nat → List Nat → List Nat → List Nat)
    (dotQ dotP : List (List Nat) → List (List Nat) → List Nat)
    (beta cprimeA : Nat) (d0Q d1Q d0P d1P : List Nat) (s : HState) :
    (Nat × Nat × Nat × Nat) × HState :=
  let dtmp := GInverse invntt decompQ decompP beta cprimeA s
  let t0Q := dotAlloc dotQ (dtmp.1.map Prod.fst) d0Q dtmp.2
  let t0P := dotAlloc dotP (dtmp.1.map Prod.snd) d0P t0Q.2
  let tiQ := dotAlloc dotQ (dtmp.1.map Prod.fst) d1Q t0P.2
  let tiP := dotAlloc dotP (dtmp.1.map Prod.snd) d1P tiQ.2
  ((t0Q.1, tiQ.1, t0P.1, tiP.1), tiP.2)

theorem frames_relinInner2 (invntt : List Nat → List Nat)
    (decompQ decompP : Nat → List Nat → List Nat → List Nat)
    (dotQ dotP : List (List Nat) → List (List Nat) → List Nat)
    (beta cprimeA : Nat) (d0Q d1Q d0P d1P : List Nat) {s t : HState}
    (h : Frames s t) :
    Frames s (relinInner2 invntt decompQ decompP dotQ dotP beta cprimeA
      d0Q d1Q d0P d1P t).2 := by
  simp only [relinInner2]
  exact frames_dotAlloc _ _ _ (frames_dotAlloc _ _ _ (frames_dotAlloc _ _ _
    (frames_dotAlloc _ _ _ (frames_GInverse _ _ _ _ _ h))))

/-- The four accumulations `ringQ.AddLvl(level, restmpQ[0], tmpC0Q,
restmpQ[0])`, `ringQ.AddLvl(level, restmpQ[i], tmpCiQ, restmpQ[i])`,
`ringP.Add(restmpP[0], tmpC0P, restmpP[0])`, `ringP.Add(restmpP[i], tmpCiP,
restmpP[i])`. -/
def relinAcc4 (addF : List Nat → List Nat → List Nat)
    (restmpQ restmpP : Nat → Nat) (i t0Q tiQ t0P tiP : Nat) (s : HState) :
    HState :=
  let s2 := hwrite s (restmpQ 0) (addF (hread s (restmpQ 0)) (hread s t0Q))
  let s3 := hwrite s2 (restmpQ i) (addF (hread s2 (restmpQ i)) (hread s2 tiQ))
  let s4 := hwrite s3 (restmpP 0) (addF (hread s3 (restmpP 0)) (hread s3 t0P))
  hwrite s4 (restmpP i) (addF (hread s4 (restmpP i)) (hread s4 tiP))

theorem frames_relinAcc4 (addF : List Nat → List Nat → List Nat)
    (restmpQ restmpP : Nat → Nat) (i t0Q tiQ t0P tiP : Nat) {s t : HState}
    (h : Frames s t) (hrQ : ∀ n, s.next ≤ restmpQ n)
    (hrP : ∀ n, s.next ≤ restmpP n) :
    Frames s (relinAcc4 addF restmpQ restmpP i t0Q tiQ t0P tiP t) := by
  simp only [relinAcc4]
  exact frames_hwrite (frames_hwrite (frames_hwrite (frames_hwrite h (hrQ 0) _)
    (hrQ i) _) (hrP 0) _) (hrP i) _

/-- `tmpIJQ := DotLvl(level, decomposedIJQ, d2Q, ringQ)` and
`tmpIJP := Dot(decomposedIJP, d2P, ringP)` (line 6). -/
def relinInner3 (dotQ dotP : List (List Nat) → List (List Nat) → List Nat)
    (dijQ dijP d2Q d2P : List Nat) (s : HState) : (Nat × Nat) × HState :=
  let tijQ := dotAlloc dotQ dijQ d2Q s
  let tijP := dotAlloc dotP dijP d2P tijQ.2
  ((tijQ.1, tijP.1), tijP.2)

theorem frames_relinInner3 (dotQ dotP : List (List Nat) → List (List Nat) → List Nat)
    (dijQ dijP d2Q d2P : List Nat) {s t : HState} (h : Frames s t) :
    Frames s (relinInner3 dotQ dotP dijQ dijP d2Q d2P t).2 := by
  simp only [relinInner3]
  exact frames_dotAlloc _ _ _ (frames_dotAlloc _ _ _ h)

/-- The accumulations `ringQ.AddLvl(level, restmpQ[j], tmpIJQ, restmpQ[j])`
and `ringP.Add(restmpP[j], tmpIJP, restmpP[j])`. -/
def relinAcc2 (addF : List Nat → List Nat → List Nat)
    (restmpQ restmpP : Nat → Nat) (j tijQ tijP : Nat) (s : HState) : HState :=
  let s6 := hwrite s (restmpQ j) (addF (hread s (restmpQ j)) (hread s tijQ))
  hwrite s6 (restmpP j) (addF (hread s6 (restmpP j)) (hread s6 tijP))

theorem frames_relinAcc2 (addF : List Nat → List Nat → List Nat)
    (restmpQ restmpP : Nat → Nat) (j tijQ tijP : Nat) {s t : HState}
    (h : Frames s t) (hrQ : ∀ n, s.next ≤ restmpQ n)
    (hrP : ∀ n, s.next ≤ restmpP n) :
    Frames s (relinAcc2 addF restmpQ restmpP j tijQ tijP t) := by
  simp only [relinAcc2]
  exact frames_hwrite (frames_hwrite h (hrQ j) _) (hrP j) _

/-- The body of the inner j loop of `func Relinearization(...)` for indices
(i, j): the phases above in source order, with restmpQ and restmpP mapping
an accumulator index to its address. -/
def relinJBody (rq rp invntt : List Nat → List Nat)
    (decompQ decompP : Nat → List Nat → List Nat → List Nat)
    (dotQ dotP : List (List Nat) → List (List Nat) → List Nat)
    (moddownF addF : List Nat → List Nat → List Nat)
    (pkj : Nat → Nat) (beta : Nat)
    (d0Q d1Q d2Q d0P d1P d2P : List Nat)
    (restmpQ restmpP : Nat → Nat)
    (cij i j : Nat) (s : HState) : HState :=
  let r1 := relinInner1 rq rp invntt decompQ decompP dotQ dotP pkj beta cij s
  let md := relinModDown moddownF r1.1.2.2.1 r1.1.2.2.2 r1.2
  let r2 := relinInner2 invntt decompQ decompP dotQ dotP beta md.1
    d0Q d1Q d0P d1P md.2
  let s5 := relinAcc4 addF restmpQ restmpP i r2.1.1 r2.1.2.1 r2.1.2.2.1
    r2.1.2.2.2 r2.2
  let r3 := relinInner3 dotQ dotP r1.1.1 r1.1.2.1 d2Q d2P s5
  relinAcc2 addF restmpQ restmpP j r3.1.1 r3.1.2 r3.2

theorem frames_relinJBody (rq rp invntt : List Nat → List Nat)
    (decompQ decompP : Nat → List Nat → List Nat → List Nat)
    (dotQ dotP : List (List Nat) → List (List Nat) → List Nat)
    (moddownF addF : List Nat → List Nat → List Nat)
    (pkj : Nat → Nat) (beta : Nat)
    (d0Q d1Q d2Q d0P d1P d2P : List Nat)
    (restmpQ restmpP : Nat → Nat) (cij i j : Nat)
    {s t : HState} (h : Frames s t)
    (hrQ : ∀ n, s.next ≤ restmpQ n) (hrP : ∀ n, s.next ≤ restmpP n) :
    Frames s (relinJBody rq rp invntt decompQ decompP dotQ dotP moddownF addF
      pkj beta d0Q d1Q d2Q d0P d1P d2P restmpQ restmpP cij i j t) := by
  simp only [relinJBody]
  exact frames_relinAcc2 _ _ _ _ _ _ (frames_relinInner3 _ _ _ _ _ _
    (frames_relinAcc4 _ _ _ _ _ _ _ _ (frames_relinInner2 _ _ _ _ _ _ _ _ _ _ _
      (frames_relinModDown _ _ _ (frames_relinInner1 _ _ _ _ _ _ _ _ _ _ h)))
      hrQ hrP)) hrQ hrP

/-- The inner `for j := uint64(1); j <= k; j++` loop of Relinearization:
iteration count in the first argument, running bodies at j = 1..n. pkAddr j u
is the address of publicKeys[j-1].Key[0].Poly[u]. -/
def relinJLoop (rq rp invntt : List Nat → List Nat)
    (decompQ decompP : Nat → List Nat → List Nat → List Nat)
    (dotQ dotP : List (List Nat) → List (List Nat) → List Nat)
    (moddownF addF : List Nat → List Nat → List Nat)
    (pkAddr : Nat → Nat → Nat) (beta : Nat)
    (d0Q d1Q d2Q d0P d1P d2P : List Nat)
    (restmpQ restmpP : Nat → Nat) (cipherParts : Nat → Nat) (k i : Nat) :
    Nat → HState → HState
  | 0, s => s
  | j + 1, s => relinJBody rq rp invntt decompQ decompP dotQ dotP moddownF addF
      (pkAddr (j + 1)) beta d0Q d1Q d2Q d0P d1P d2P restmpQ restmpP
      (cipherParts (i * (k + 1) + (j + 1))) i (j + 1)
      (relinJLoop rq rp invntt decompQ decompP dotQ dotP moddownF addF pkAddr
        beta d0Q d1Q d2Q d0P d1P d2P restmpQ restmpP cipherParts k i j s)

theorem frames_relinJLoop (rq rp invntt : List Nat → List Nat)
    (decompQ decompP : Nat → List Nat → List Nat → List Nat)
    (dotQ dotP : List (List Nat) → List (List Nat) → List Nat)
    (moddownF addF : List Nat → List Nat → List Nat)
    (pkAddr : Nat → Nat → Nat) (beta : Nat)
    (d0Q d1Q d2Q d0P d1P d2P : List Nat)
    (restmpQ restmpP : Nat → Nat) (cipherParts : Nat → Nat) (k i n : Nat)
    {s t : HState} (h : Frames s t)
    (hrQ : ∀ m, s.next ≤ restmpQ m) (hrP : ∀ m, s.next ≤ restmpP m) :
    Frames s (relinJLoop rq rp invntt decompQ decompP dotQ dotP moddownF addF
      pkAddr beta d0Q d1Q d2Q d0P d1P d2P restmpQ restmpP cipherParts k i n t) := by
  induction n with
  | zero => exact h
  | succ j ih =>
      simp only [relinJLoop]
      exact frames_relinJBody _ _ _ _ _ _ _ _ _ _ _ _ _ _ _ _ _ _ _ _ _ _
        ih hrQ hrP

/-- The outer `for i := uint64(1); i <= k; i++` loop of Relinearization:
prepareEvalKey for key i, then the inner j loop. evalKey i c u is the
address of evaluationKeys[i-1].Key[c].Poly[u]. -/
def relinILoop (rq rp invntt : List Nat → List Nat)
    (decompQ decompP : Nat → List Nat → List Nat → List Nat)
    (dotQ dotP : List (List Nat) → List (List Nat) → List Nat)
    (moddownF addF : List Nat → List Nat → List Nat)
    (evalKey : Nat → Nat → Nat → Nat) (pkAddr : Nat → Nat → Nat) (beta : Nat)
    (restmpQ restmpP : Nat → Nat) (cipherParts : Nat → Nat) (k : Nat) :
    Nat → HState → HState
  | 0, s => s
  | i + 1, s =>
    let prev := relinILoop rq rp invntt decompQ decompP dotQ dotP moddownF addF
      evalKey pkAddr beta restmpQ restmpP cipherParts k i s
    let pe := prepareEvalKey rq rp (evalKey (i + 1) 0) (evalKey (i + 1) 1)
      (evalKey (i + 1) 2) beta prev
    relinJLoop rq rp invntt decompQ decompP dotQ dotP moddownF addF pkAddr beta
      (pe.1.map (fun x => x.1)) (pe.1.map (fun x => x.2.1))
      (pe.1.map (fun x => x.2.2.1)) (pe.1.map (fun x => x.2.2.2.1))
      (pe.1.map (fun x => x.2.2.2.2.1)) (pe.1.map (fun x => x.2.2.2.2.2))
      restmpQ restmpP cipherParts k (i + 1) k pe.2

theorem frames_relinILoop (rq rp invntt : List Nat → List Nat)
    (decompQ decompP : Nat → List Nat → List Nat → List Nat)
    (dotQ dotP : List (List Nat) → List (List Nat) → List Nat)
    (moddownF addF : List Nat → List Nat → List Nat)
    (evalKey : Nat → Nat → Nat → Nat) (pkAddr : Nat → Nat → Nat) (beta : Nat)
    (restmpQ restmpP : Nat → Nat) (cipherParts : Nat → Nat) (k n : Nat)
    {s t : HState} (h : Frames s t)
    (hrQ : ∀ m, s.next ≤ restmpQ m) (hrP : ∀ m, s.next ≤ restmpP m) :
    Frames s (relinILoop rq rp invntt decompQ decompP dotQ dotP moddownF addF
      evalKey pkAddr beta restmpQ restmpP cipherParts k n t) := by
  induction n with
  | zero => exact h
  | succ i ih =>
      simp only [relinILoop]
      exact frames_relinJLoop _ _ _ _ _ _ _ _ _ _ _ _ _ _ _ _ _ _ _ _ _ _ _
        (frames_prepareEvalKey _ _ _ _ _ _ ih) hrQ hrP

/-- The allocation loop `for i := uint64(0); i < k+1; i++ { restmpQ[i] =
ringQ.NewPoly(); restmpP[i] = ringP.NewPoly(); res[i] = ringQ.NewPoly() }`:
n fresh zero polynomials at consecutive addresses. -/
def allocPolys : Nat → HState → HState
  | 0, s => s
  | n + 1, s => (allocWrite (allocPolys n s) []).2

theorem frames_allocPolys (n : Nat) {s t : HState} (h : Frames s t) :
    Frames s (allocPolys n t) := by
  induction n with
  | zero => exact h
  | succ m ih =>
      simp only [allocPolys]
      exact frames_allocWrite ih []

/-- One iteration of the final loop of Relinearization at index i:
`ringQ.AddLvl(level, cipherParts[i], cipherParts[(k+1)*i], res[i])`,
`baseconverter.ModDownSplitNTTPQ(level, restmpQ[i], restmpP[i], tmpModDown)`,
`ringQ.AddLvl(level, res[i], tmpModDown, res[i])`. -/
def relinFinalStep (moddownF addF : List Nat → List Nat → List Nat)
    (cipherParts restmpQ restmpP res : Nat → Nat) (tmd k i : Nat)
    (s : HState) : HState :=
  let s1 := hwrite s (res i)
    (addF (hread s (cipherParts i)) (hread s (cipherParts ((k + 1) * i))))
  let s2 := hwrite s1 tmd (moddownF (hread s1 (restmpQ i)) (hread s1 (restmpP i)))
  hwrite s2 (res i) (addF (hread s2 (res i)) (hread s2 tmd))

theorem frames_relinFinalStep (moddownF addF : List Nat → List Nat → List Nat)
    (cipherParts restmpQ restmpP res : Nat → Nat) (tmd k i : Nat)
    {s t : HState} (h : Frames s t) (hres : s.next ≤ res i)
    (htmd : s.next ≤ tmd) :
    Frames s (relinFinalStep moddownF addF cipherParts restmpQ restmpP res
      tmd k i t) := by
  simp only [relinFinalStep]
  exact frames_hwrite (frames_hwrite (frames_hwrite h hres _) htmd _) hres _

/-- The final `for i := uint64(1); i <= k; i++` loop of Relinearization. -/
def relinFinalLoop (moddownF addF : List Nat → List Nat → List Nat)
    (cipherParts restmpQ restmpP res : Nat → Nat) (tmd k : Nat) :
    Nat → HState → HState
  | 0, s => s
  | i + 1, s => relinFinalStep moddownF addF cipherParts restmpQ restmpP res
      tmd k (i + 1)
      (relinFinalLoop moddownF addF cipherParts restmpQ restmpP res tmd k i s)

theorem frames_relinFinalLoop (moddownF addF : List Nat → List Nat → List Nat)
    (cipherParts restmpQ restmpP res : Nat → Nat) (tmd k n : Nat)
    {s t : HState} (h : Frames s t) (hres : ∀ m, s.next ≤ res m)
    (htmd : s.next ≤ tmd) :
    Frames s (relinFinalLoop moddownF addF cipherParts restmpQ restmpP res
      tmd k n t) := by
  induction n with
  | zero => exact h
  | succ i ih =>
      simp only [relinFinalLoop]
      exact frames_relinFinalStep _ _ _ _ _ _ _ _ _ ih (hres (i + 1)) htmd

/-- `func Relinearization(evaluationKeys []*MKEvaluationKey, publicKeys
[]*MKPublicKey, ct *MKCiphertext, params *rlwe.Parameters)`: allocate the
k+1 accumulators restmpQ, restmpP, res (at the consecutive addresses the
deterministic allocator hands out); run the nested i and j loops; then
tmpModDown := ringQ.NewPoly(), ModDownSplitNTTPQ of restmpQ[0]/restmpP[0],
AddLvl into res[0], and the final i loop. Returns the new ciphertext part
addresses that ct.Ciphertexts.SetValue(res) installs, and the final heap. -/
def Relinearization (rq rp invntt : List Nat → List Nat)
    (decompQ decompP : Nat → List Nat → List Nat → List Nat)
    (dotQ dotP : List (List Nat) → List (List Nat) → List Nat)
    (moddownF addF : List Nat → List Nat → List Nat)
    (k beta : Nat) (evalKey : Nat → Nat → Nat → Nat) (pkAddr : Nat → Nat → Nat)
    (cipherParts : Nat → Nat) (s0 : HState) : List Nat × HState :=
  let s1 := allocPolys (3 * (k + 1)) s0
  let restmpQ := fun i => s0.next + 3 * i
  let restmpP := fun i => s0.next + 3 * i + 1
  let res := fun i => s0.next + 3 * i + 2
  let s2 := relinILoop rq rp invntt decompQ decompP dotQ dotP moddownF addF
    evalKey pkAddr beta restmpQ restmpP cipherParts k k s1
  let tmd := allocWrite s2 []
  let s3 := hwrite tmd.2 tmd.1
    (moddownF (hread tmd.2 (restmpQ 0)) (hread tmd.2 (restmpP 0)))
  let s4 := hwrite s3 (res 0) (addF (hread s3 (cipherParts 0)) (hread s3 tmd.1))
  let s5 := relinFinalLoop moddownF addF cipherParts restmpQ restmpP res
    tmd.1 k k s4
  ((List.range (k + 1)).map res, s5)

theorem frames_Relinearization (rq rp invntt : List Nat → List Nat)
    (decompQ decompP : Nat → List Nat → List Nat → List Nat)
    (dotQ dotP : List (List Nat) → List (List Nat) → List Nat)
    (moddownF addF : List Nat → List Nat → List Nat)
    (k beta : Nat) (evalKey : Nat → Nat → Nat → Nat) (pkAddr : Nat → Nat → Nat)
    (cipherParts : Nat → Nat) (s0 : HState) :
    Frames s0 (Relinearization rq rp invntt decompQ decompP dotQ dotP moddownF
      addF k beta evalKey pkAddr cipherParts s0).2 := by
  have h1 : Frames s0 (allocPolys (3 * (k + 1)) s0) :=
    frames_allocPolys _ (frames_rfl s0)
  have h2 := frames_relinILoop rq rp invntt decompQ decompP dotQ dotP moddownF
    addF evalKey pkAddr beta (fun i => s0.next + 3 * i)
    (fun i => s0.next + 3 * i + 1) cipherParts k k h1
    (fun m => by show s0.next ≤ s0.next + 3 * m; omega)
    (fun m => by show s0.next ≤ s0.next + 3 * m + 1; omega)
  simp only [Relinearization]
  exact frames_relinFinalLoop _ _ _ _ _ _ _ _ _
    (frames_hwrite (frames_hwrite (frames_allocWrite h2 _) h2.1 _)
      (by show s0.next ≤ s0.next + 3 * 0 + 2; omega) _)
    (fun m => by show s0.next ≤ s0.next + 3 * m + 2; omega) h2.1

/-- C9: Relinearization consumes its key material read-only: every
evaluation-key polynomial and every public-key polynomial holds exactly the
same coefficients after the call as before it, for every choice of the ring
arithmetic — the per-basis views are built from CopyNew copies and every
write of the algorithm targets a polynomial the call itself allocated. -/
theorem C9_relinearization_keys_read_only (rq rp invntt : List Nat → List Nat)
    (decompQ decompP : Nat → List Nat → List Nat → List Nat)
    (dotQ dotP : List (List Nat) → List (List Nat) → List Nat)
    (moddownF addF : List Nat → List Nat → List Nat)
    (k beta : Nat) (evalKey : Nat → Nat → Nat → Nat) (pkAddr : Nat → Nat → Nat)
    (cipherParts : Nat → Nat) (s0 : HState)
    (heval : ∀ i c u, evalKey i c u < s0.next)
    (hpk : ∀ j u, pkAddr j u < s0.next) :
    (∀ i c u, hread (Relinearization rq rp invntt decompQ decompP dotQ dotP
        moddownF addF k beta evalKey pkAddr cipherParts s0).2 (evalKey i c u) =
      hread s0 (evalKey i c u)) ∧
    (∀ j u, hread (Relinearization rq rp invntt decompQ decompP dotQ dotP
        moddownF addF k beta evalKey pkAddr cipherParts s0).2 (pkAddr j u) =
      hread s0 (pkAddr j u)) := by
  have hf := frames_Relinearization rq rp invntt decompQ decompP dotQ dotP
    moddownF addF k beta evalKey pkAddr cipherParts s0
  exact ⟨fun i c u => hf.2 _ (heval i c u), fun j u => hf.2 _ (hpk j u)⟩

theorem C9_witness :
    hread (Relinearization (fun l => l) (fun l => l) (fun l => l)
      (fun _ a b => a ++ b) (fun _ a b => a ++ b)
      (fun _ _ => []) (fun _ _ => [])
      (fun a b => a ++ b) (fun a b => a ++ b)
      1 1 (fun _ _ _ => 0) (fun _ _ => 1) (fun _ => 0)
      ⟨2, fun a => if a = 0 then [5] else if a = 1 then [7] else []⟩).2 0 = [5] := by
  have h := C9_relinearization_keys_read_only (fun l => l) (fun l => l)
    (fun l => l) (fun _ a b => a ++ b) (fun _ a b => a ++ b)
    (fun _ _ => []) (fun _ _ => []) (fun a b => a ++ b) (fun a b => a ++ b)
    1 1 (fun _ _ _ => 0) (fun _ _ => 1) (fun _ => 0)
    ⟨2, fun a => if a = 0 then [5] else if a = 1 then [7] else []⟩
    (fun _ _ _ => by show (0 : Nat) < 2; omega)
    (fun _ _ => by show (1 : Nat) < 2; omega)
  exact (h.1 1 0 0).trans rfl

/-- The sign a monomial of degree m picks up when reduced negacyclically
modulo X^N + 1: X^N = -1, so X^m = (-1)^(m / N) X^(m % N). -/
def negacyclicSign (N m : Nat) : ℤ := (-1) ^ (m / N)

/-- Modelled from the spec: multiplication in the polynomial ring
Z[X]/(X^N + 1) on coefficient functions — the product of the monomials
p_j X^j and q_k X^k contributes (-1)^((j+k)/N) p_j q_k to coefficient
(j + k) % N. -/
def nmul (N : Nat) (p q : Nat → ℤ) : Nat → ℤ :=
  fun n => ∑ j ∈ Finset.range N, ∑ k ∈ Finset.range N,
    if (j + k) % N = n then negacyclicSign N (j + k) * p j * q k else 0

/-- A number below 2N reduces mod N by at most one subtraction. -/
theorem mod_two_ranges (N x : Nat) (h : x < 2 * N) :
    x % N = if x < N then x else x - N := by
  rcases Nat.lt_or_ge x N with h1 | h1
  · rw [if_pos h1, Nat.mod_eq_of_lt h1]
  · rw [if_neg (Nat.not_lt.mpr h1), Nat.mod_eq_sub_mod h1,
      Nat.mod_eq_of_lt (by omega)]

/-- Degrees below 2N carry sign -1 exactly when they reach N. -/
theorem negacyclicSign_two_ranges (N x : Nat) (hN : 0 < N) (h : x < 2 * N) :
    negacyclicSign N x = if x < N then 1 else -1 := by
  unfold negacyclicSign
  rcases Nat.lt_or_ge x N with h1 | h1
  · rw [if_pos h1, Nat.div_eq_of_lt h1, pow_zero]
  · rw [if_neg (Nat.not_lt.mpr h1)]
    have hdiv : x / N = 1 := Nat.div_eq_of_lt_le (by omega) (by omega)
    rw [hdiv, pow_one]

/-- Composing a negacyclic reduction with one more factor: reducing the
degree first and multiplying the signs agrees with reducing once. -/
theorem negacyclicSign_compose (N a l : Nat) (hN : 0 < N) (ha : a < 2 * N)
    (hl : l < N) :
    negacyclicSign N (a % N + l) * negacyclicSign N a =
      negacyclicSign N (a + l) := by
  rcases Nat.lt_or_ge a N with h1 | h1
  · rw [Nat.mod_eq_of_lt h1, negacyclicSign_two_ranges N a hN (by omega), if_pos h1,
      mul_one]
  · have hmod : a % N = a - N := by
      rw [mod_two_ranges N a ha, if_neg (Nat.not_lt.mpr h1)]
    rw [hmod, negacyclicSign_two_ranges N a hN ha, if_neg (Nat.not_lt.mpr h1)]
    rcases Nat.lt_or_ge (a - N + l) N with h2 | h2
    · rw [negacyclicSign_two_ranges N (a - N + l) hN (by omega), if_pos h2]
      have hdiv : (a + l) / N = 1 := Nat.div_eq_of_lt_le (by omega) (by omega)
      unfold negacyclicSign
      rw [hdiv]
      norm_num
    · rw [negacyclicSign_two_ranges N (a - N + l) hN (by omega),
        if_neg (Nat.not_lt.mpr h2)]
      have hdiv : (a + l) / N = 2 := Nat.div_eq_of_lt_le (by omega) (by omega)
      unfold negacyclicSign
      rw [hdiv]
      norm_num

/-- nmul distributes over sums on the right. -/
theorem nmul_add_right (N : Nat) (p q r : Nat → ℤ) :
    nmul N p (q + r) = nmul N p q + nmul N p r := by
  funext n
  show (∑ j ∈ Finset.range N, ∑ k ∈ Finset.range N,
      if (j + k) % N = n then negacyclicSign N (j + k) * p j * (q k + r k) else 0) =
    (∑ j ∈ Finset.range N, ∑ k ∈ Finset.range N,
      if (j + k) % N = n then negacyclicSign N (j + k) * p j * q k else 0) +
    (∑ j ∈ Finset.range N, ∑ k ∈ Finset.range N,
      if (j + k) % N = n then negacyclicSign N (j + k) * p j * r k else 0)
  rw [← Finset.sum_add_distrib]
  apply Finset.sum_congr rfl
  intro j _
  rw [← Finset.sum_add_distrib]
  apply Finset.sum_congr rfl
  intro k _
  by_cases h : (j + k) % N = n
  · simp only [if_pos h]
    ring
  · simp only [if_neg h, add_zero]

/-- nmul distributes over sums on the left. -/
theorem nmul_add_left (N : Nat) (p q r : Nat → ℤ) :
    nmul N (p + q) r = nmul N p r + nmul N q r := by
  funext n
  show (∑ j ∈ Finset.range N, ∑ k ∈ Finset.range N,
      if (j + k) % N = n then negacyclicSign N (j + k) * (p j + q j) * r k else 0) =
    (∑ j ∈ Finset.range N, ∑ k ∈ Finset.range N,
      if (j + k) % N = n then negacyclicSign N (j + k) * p j * r k else 0) +
    (∑ j ∈ Finset.range N, ∑ k ∈ Finset.range N,
      if (j + k) % N = n then negacyclicSign N (j + k) * q j * r k else 0)
  rw [← Finset.sum_add_distrib]
  apply Finset.sum_congr rfl
  intro j _
  rw [← Finset.sum_add_distrib]
  apply Finset.sum_congr rfl
  intro k _
  by_cases h : (j + k) % N = n
  · simp only [if_pos h]
    ring
  · simp only [if_neg h, add_zero]

/-- nmul of the zero polynomial is zero. -/
theorem nmul_zero_left (N : Nat) (q : Nat → ℤ) : nmul N (0 : Nat → ℤ) q = 0 := by
  funext n
  show (∑ j ∈ Finset.range N, ∑ k ∈ Finset.range N,
      if (j + k) % N = n then negacyclicSign N (j + k) * (0 : ℤ) * q k else 0) = 0
  apply Finset.sum_eq_zero
  intro j _
  apply Finset.sum_eq_zero
  intro k _
  by_cases h : (j + k) % N = n
  · simp [if_pos h]
  · simp [if_neg h]

/-- nmul distributes over subtraction on the right. -/
theorem nmul_sub_right (N : Nat) (p q r : Nat → ℤ) :
    nmul N p (q - r) = nmul N p q - nmul N p r := by
  funext n
  show (∑ j ∈ Finset.range N, ∑ k ∈ Finset.range N,
      if (j + k) % N = n then negacyclicSign N (j + k) * p j * (q k - r k) else 0) =
    (∑ j ∈ Finset.range N, ∑ k ∈ Finset.range N,
      if (j + k) % N = n then negacyclicSign N (j + k) * p j * q k else 0) -
    (∑ j ∈ Finset.range N, ∑ k ∈ Finset.range N,
      if (j + k) % N = n then negacyclicSign N (j + k) * p j * r k else 0)
  rw [← Finset.sum_sub_distrib]
  apply Finset.sum_congr rfl
  intro j _
  rw [← Finset.sum_sub_distrib]
  apply Finset.sum_congr rfl
  intro k _
  by_cases h : (j + k) % N = n
  · simp only [if_pos h]
    ring
  · simp only [if_neg h, sub_zero]

/-- nmul distributes over finite sums on the left. -/
theorem nmul_sum_left (N : Nat) (b : Nat) (f : Nat → Nat → ℤ) (q : Nat → ℤ) :
    nmul N (∑ i ∈ Finset.range b, f i) q =
      ∑ i ∈ Finset.range b, nmul N (f i) q := by
  induction b with
  | zero =>
      rw [Finset.range_zero, Finset.sum_empty, Finset.sum_empty]
      exact nmul_zero_left N q
  | succ m ih =>
      rw [Finset.sum_range_succ, Finset.sum_range_succ, nmul_add_left, ih]

/-- Reorder four nested finite sums, bringing the last two index sets first. -/
theorem sum4_swap {s t u v : Finset Nat} (f : Nat → Nat → Nat → Nat → ℤ) :
    (∑ m ∈ s, ∑ l ∈ t, ∑ j ∈ u, ∑ k ∈ v, f m l j k) =
      ∑ j ∈ u, ∑ k ∈ v, ∑ m ∈ s, ∑ l ∈ t, f m l j k := by
  calc (∑ m ∈ s, ∑ l ∈ t, ∑ j ∈ u, ∑ k ∈ v, f m l j k)
      = ∑ m ∈ s, ∑ j ∈ u, ∑ l ∈ t, ∑ k ∈ v, f m l j k :=
        Finset.sum_congr rfl (fun m _ => Finset.sum_comm)
    _ = ∑ j ∈ u, ∑ m ∈ s, ∑ l ∈ t, ∑ k ∈ v, f m l j k := Finset.sum_comm
    _ = ∑ j ∈ u, ∑ m ∈ s, ∑ k ∈ v, ∑ l ∈ t, f m l j k :=
        Finset.sum_congr rfl (fun j _ =>
          Finset.sum_congr rfl (fun m _ => Finset.sum_comm))
    _ = ∑ j ∈ u, ∑ k ∈ v, ∑ m ∈ s, ∑ l ∈ t, f m l j k :=
        Finset.sum_congr rfl (fun j _ => Finset.sum_comm)

/-- Rotate three nested finite sums, bringing the first index set last. -/
theorem sum3_rot {s t u : Finset Nat} (f : Nat → Nat → Nat → ℤ) :
    (∑ m ∈ s, ∑ k ∈ t, ∑ l ∈ u, f m k l) =
      ∑ k ∈ t, ∑ l ∈ u, ∑ m ∈ s, f m k l := by
  calc (∑ m ∈ s, ∑ k ∈ t, ∑ l ∈ u, f m k l)
      = ∑ k ∈ t, ∑ m ∈ s, ∑ l ∈ u, f m k l := Finset.sum_comm
    _ = ∑ k ∈ t, ∑ l ∈ u, ∑ m ∈ s, f m k l :=
        Finset.sum_congr rfl (fun k _ => Finset.sum_comm)

/-- Left-associated double nmul as a canonical triple sum. -/
theorem nmul_nmul_left (N : Nat) (hN : 0 < N) (p q r : Nat → ℤ) (n : Nat) :
    nmul N (nmul N p q) r n =
      ∑ j ∈ Finset.range N, ∑ k ∈ Finset.range N, ∑ l ∈ Finset.range N,
        if (j + k + l) % N = n then
          negacyclicSign N (j + k + l) * (p j * (q k * r l)) else 0 := by
  have hpush : ∀ m ∈ Finset.range N, ∀ l ∈ Finset.range N,
      (if (m + l) % N = n then negacyclicSign N (m + l) * nmul N p q m * r l else 0) =
      ∑ j ∈ Finset.range N, ∑ k ∈ Finset.range N,
        if (j + k) % N = m then
          (if (m + l) % N = n then
            negacyclicSign N (m + l) * (negacyclicSign N (j + k) * p j * q k) * r l
          else 0)
        else 0 := by
    intro m _ l _
    by_cases hC : (m + l) % N = n
    · rw [if_pos hC]
      show negacyclicSign N (m + l) * (∑ j ∈ Finset.range N, ∑ k ∈ Finset.range N,
          if (j + k) % N = m then negacyclicSign N (j + k) * p j * q k else 0) * r l = _
      rw [Finset.mul_sum, Finset.sum_mul]
      apply Finset.sum_congr rfl
      intro j _
      rw [Finset.mul_sum, Finset.sum_mul]
      apply Finset.sum_congr rfl
      intro k _
      by_cases hD : (j + k) % N = m
      · simp only [if_pos hD, if_pos hC]
      · simp only [if_neg hD, mul_zero, zero_mul]
    · rw [if_neg hC]
      symm
      apply Finset.sum_eq_zero
      intro j _
      apply Finset.sum_eq_zero
      intro k _
      by_cases hD : (j + k) % N = m
      · rw [if_pos hD, if_neg hC]
      · rw [if_neg hD]
  show (∑ m ∈ Finset.range N, ∑ l ∈ Finset.range N,
      if (m + l) % N = n then negacyclicSign N (m + l) * nmul N p q m * r l else 0) = _
  rw [Finset.sum_congr rfl (fun m hm =>
    Finset.sum_congr rfl (fun l hl => hpush m hm l hl))]
  rw [sum4_swap]
  apply Finset.sum_congr rfl
  intro j hj
  apply Finset.sum_congr rfl
  intro k hk
  have hjk : j + k < 2 * N := by
    have h1 := Finset.mem_range.mp hj
    have h2 := Finset.mem_range.mp hk
    omega
  have hm0 : (j + k) % N ∈ Finset.range N :=
    Finset.mem_range.mpr (Nat.mod_lt _ hN)
  calc (∑ m ∈ Finset.range N, ∑ l ∈ Finset.range N,
        if (j + k) % N = m then
          (if (m + l) % N = n then
            negacyclicSign N (m + l) * (negacyclicSign N (j + k) * p j * q k) * r l
          else 0)
        else 0)
      = ∑ l ∈ Finset.range N, ∑ m ∈ Finset.range N,
          if (j + k) % N = m then
            (if (m + l) % N = n then
              negacyclicSign N (m + l) * (negacyclicSign N (j + k) * p j * q k) * r l
            else 0)
          else 0 := Finset.sum_comm
    _ = ∑ l ∈ Finset.range N,
          if ((j + k) % N + l) % N = n then
            negacyclicSign N ((j + k) % N + l) *
              (negacyclicSign N (j + k) * p j * q k) * r l
          else 0 := by
        apply Finset.sum_congr rfl
        intro l _
        rw [Finset.sum_ite_eq, if_pos hm0]
    _ = ∑ l ∈ Finset.range N,
          if (j + k + l) % N = n then
            negacyclicSign N (j + k + l) * (p j * (q k * r l))
          else 0 := by
        apply Finset.sum_congr rfl
        intro l hl
        have hlN := Finset.mem_range.mp hl
        rw [Nat.mod_add_mod]
        by_cases hC : (j + k + l) % N = n
        · rw [if_pos hC, if_pos hC]
          have hs := negacyclicSign_compose N (j + k) l hN hjk hlN
          calc negacyclicSign N ((j + k) % N + l) *
                (negacyclicSign N (j + k) * p j * q k) * r l
              = negacyclicSign N ((j + k) % N + l) * negacyclicSign N (j + k) *
                  (p j * (q k * r l)) := by ring
            _ = negacyclicSign N (j + k + l) * (p j * (q k * r l)) := by rw [hs]
        · rw [if_neg hC, if_neg hC]

/-- Right-associated double nmul as the same canonical triple sum. -/
theorem nmul_nmul_right (N : Nat) (hN : 0 < N) (p q r : Nat → ℤ) (n : Nat) :
    nmul N p (nmul N q r) n =
      ∑ j ∈ Finset.range N, ∑ k ∈ Finset.range N, ∑ l ∈ Finset.range N,
        if (j + k + l) % N = n then
          negacyclicSign N (j + k + l) * (p j * (q k * r l)) else 0 := by
  have hpush : ∀ j ∈ Finset.range N, ∀ m ∈ Finset.range N,
      (if (j + m) % N = n then negacyclicSign N (j + m) * p j * nmul N q r m else 0) =
      ∑ k ∈ Finset.range N, ∑ l ∈ Finset.range N,
        if (k + l) % N = m then
          (if (j + m) % N = n then
            negacyclicSign N (j + m) * p j *
              (negacyclicSign N (k + l) * q k * r l)
          else 0)
        else 0 := by
    intro j _ m _
    by_cases hC : (j + m) % N = n
    · rw [if_pos hC]
      show negacyclicSign N (j + m) * p j * (∑ k ∈ Finset.range N, ∑ l ∈ Finset.range N,
          if (k + l) % N = m then negacyclicSign N (k + l) * q k * r l else 0) = _
      rw [Finset.mul_sum]
      apply Finset.sum_congr rfl
      intro k _
      rw [Finset.mul_sum]
      apply Finset.sum_congr rfl
      intro l _
      by_cases hD : (k + l) % N = m
      · simp only [if_pos hD, if_pos hC]
      · simp only [if_neg hD, mul_zero]
    · rw [if_neg hC]
      symm
      apply Finset.sum_eq_zero
      intro k _
      apply Finset.sum_eq_zero
      intro l _
      by_cases hD : (k + l) % N = m
      · rw [if_pos hD, if_neg hC]
      · rw [if_neg hD]
  show (∑ j ∈ Finset.range N, ∑ m ∈ Finset.range N,
      if (j + m) % N = n then negacyclicSign N (j + m) * p j * nmul N q r m else 0) = _
  rw [Finset.sum_congr rfl (fun j hj =>
    Finset.sum_congr rfl (fun m hm => hpush j hj m hm))]
  apply Finset.sum_congr rfl
  intro j hj
  have hjN := Finset.mem_range.mp hj
  rw [sum3_rot]
  apply Finset.sum_congr rfl
  intro k hk
  have hkN := Finset.mem_range.mp hk
  apply Finset.sum_congr rfl
  intro l hl
  have hlN := Finset.mem_range.mp hl
  have hkl : k + l < 2 * N := by omega
  have hm0 : (k + l) % N ∈ Finset.range N :=
    Finset.mem_range.mpr (Nat.mod_lt _ hN)
  rw [Finset.sum_ite_eq, if_pos hm0]
  rw [Nat.add_comm j ((k + l) % N), Nat.mod_add_mod,
    show k + l + j = j + k + l from by omega]
  by_cases hC : (j + k + l) % N = n
  · rw [if_pos hC, if_pos hC]
    have hs := negacyclicSign_compose N (k + l) j hN hkl hjN
    rw [show k + l + j = j + k + l from by omega] at hs
    calc negacyclicSign N ((k + l) % N + j) * p j *
          (negacyclicSign N (k + l) * q k * r l)
        = negacyclicSign N ((k + l) % N + j) * negacyclicSign N (k + l) *
            (p j * (q k * r l)) := by ring
      _ = negacyclicSign N (j + k + l) * (p j * (q k * r l)) := by rw [hs]
  · rw [if_neg hC, if_neg hC]

/-- nmul is associative. -/
theorem nmul_assoc (N : Nat) (hN : 0 < N) (p q r : Nat → ℤ) :
    nmul N (nmul N p q) r = nmul N p (nmul N q r) := by
  funext n
  rw [nmul_nmul_left N hN p q r n, nmul_nmul_right N hN p q r n]

/-- A sum of an indicator-selected family with at most one selected index is
bounded by the per-term bound. -/
theorem abs_sum_ite_le (s : Finset Nat) (P : Nat → Prop) [DecidablePred P]
    (t : Nat → ℤ) (B : ℤ) (hB : 0 ≤ B) (ht : ∀ k ∈ s, P k → |t k| ≤ B)
    (huniq : ∀ k1 ∈ s, ∀ k2 ∈ s, P k1 → P k2 → k1 = k2) :
    |∑ k ∈ s, if P k then t k else 0| ≤ B := by
  by_cases hex : ∃ k ∈ s, P k
  · obtain ⟨k0, hk0s, hk0⟩ := hex
    rw [Finset.sum_eq_single k0]
    · rw [if_pos hk0]
      exact ht k0 hk0s hk0
    · intro k hks hkne
      rw [if_neg]
      intro hPk
      exact hkne (huniq k hks k0 hk0s hPk hk0)
    · intro habs
      exact absurd hk0s habs
  · rw [Finset.sum_eq_zero]
    · rw [abs_zero]
      exact hB
    · intro k hks
      rw [if_neg]
      intro hPk
      exact hex ⟨k, hks, hPk⟩

/-- Coefficientwise bound on a negacyclic product: each output coefficient is
a sum of N products of coefficients, one per index of the left factor. -/
theorem nmul_bound (N : Nat) (hN : 0 < N) (p q : Nat → ℤ) (Bp Bq : ℤ)
    (hp : ∀ m, |p m| ≤ Bp) (hq : ∀ m, |q m| ≤ Bq) :
    ∀ n, |nmul N p q n| ≤ (N : ℤ) * (Bp * Bq) := by
  intro n
  have hBp : 0 ≤ Bp := le_trans (abs_nonneg _) (hp 0)
  have hBq : 0 ≤ Bq := le_trans (abs_nonneg _) (hq 0)
  have hterm : ∀ j k : Nat, |negacyclicSign N (j + k) * p j * q k| ≤ Bp * Bq := by
    intro j k
    rw [abs_mul, abs_mul]
    have hsgn : |negacyclicSign N (j + k)| = 1 := by
      unfold negacyclicSign
      rw [abs_pow, abs_neg, abs_one, one_pow]
    rw [hsgn, one_mul]
    exact mul_le_mul (hp j) (hq k) (abs_nonneg _) hBp
  have hinner : ∀ j ∈ Finset.range N,
      |∑ k ∈ Finset.range N,
        if (j + k) % N = n then negacyclicSign N (j + k) * p j * q k else 0| ≤
      Bp * Bq := by
    intro j hj
    have hjN := Finset.mem_range.mp hj
    refine abs_sum_ite_le (Finset.range N) (fun k => (j + k) % N = n) _ (Bp * Bq)
      (mul_nonneg hBp hBq) (fun k _ _ => hterm j k) ?_
    intro k1 hk1 k2 hk2 h1 h2
    have hk1N := Finset.mem_range.mp hk1
    have hk2N := Finset.mem_range.mp hk2
    rw [mod_two_ranges N (j + k1) (by omega)] at h1
    rw [mod_two_ranges N (j + k2) (by omega)] at h2
    split_ifs at h1 h2 <;> omega
  calc |nmul N p q n|
      ≤ ∑ j ∈ Finset.range N,
          |∑ k ∈ Finset.range N,
            if (j + k) % N = n then negacyclicSign N (j + k) * p j * q k else 0| :=
        Finset.abs_sum_le_sum_abs _ _
    _ ≤ ∑ j ∈ Finset.range N, Bp * Bq := Finset.sum_le_sum hinner
    _ = (N : ℤ) * (Bp * Bq) := by
        rw [Finset.sum_const, Finset.card_range, nsmul_eq_mul]

/-- Modelled from the spec: the evaluation key from secret s to secret sOut
is the gadget encryption {(d0_i, d1_i)} of s against the public weights w_i:
d0_i = w_i * s + e_i - a_i * sOut (an encryption of w_i * s under sOut with
Gaussian noise e_i and uniform mask a_i), d1_i = a_i. -/
def swkD0 (N : Nat) (s sOut w a e : Nat → ℤ) : Nat → ℤ :=
  nmul N w s + e - nmul N a sOut

/-- Modelled from the spec: KeySwitcher computes the accumulator
(Σ_i digit_i * key_i) over the decomposition digits — used with key = d0 for
the first output and key = d1 for the second. -/
def keySwitchAcc (N b : Nat) (digit key : Nat → Nat → ℤ) : Nat → ℤ :=
  ∑ i ∈ Finset.range b, nmul N (digit i) (key i)

/-- Modelled from the spec: "decrypting" the key-switched pair with the new
secret: c0 + c1 * sOut. -/
def ksDecrypt (N : Nat) (c0 c1 sOut : Nat → ℤ) : Nat → ℤ := c0 + nmul N c1 sOut

/-- The key-switch decryption error is exactly the digit-noise inner sum. -/
theorem ks_error_eq (N b : Nat) (hN : 0 < N) (s sOut : Nat → ℤ)
    (w a e digit : Nat → Nat → ℤ) :
    ksDecrypt N
        (keySwitchAcc N b digit (fun i => swkD0 N s sOut (w i) (a i) (e i)))
        (keySwitchAcc N b digit a) sOut -
      nmul N (∑ i ∈ Finset.range b, nmul N (digit i) (w i)) s =
    ∑ i ∈ Finset.range b, nmul N (digit i) (e i) := by
  unfold ksDecrypt keySwitchAcc swkD0
  have hT1 : (∑ i ∈ Finset.range b, nmul N (digit i)
      (nmul N (w i) s + e i - nmul N (a i) sOut)) =
    (∑ i ∈ Finset.range b, nmul N (digit i) (nmul N (w i) s)) +
    (∑ i ∈ Finset.range b, nmul N (digit i) (e i)) -
    (∑ i ∈ Finset.range b, nmul N (digit i) (nmul N (a i) sOut)) := by
    rw [← Finset.sum_add_distrib, ← Finset.sum_sub_distrib]
    apply Finset.sum_congr rfl
    intro i _
    rw [nmul_sub_right, nmul_add_right]
  have hT2 : nmul N (∑ i ∈ Finset.range b, nmul N (digit i) (a i)) sOut =
      ∑ i ∈ Finset.range b, nmul N (digit i) (nmul N (a i) sOut) := by
    rw [nmul_sum_left]
    apply Finset.sum_congr rfl
    intro i _
    exact nmul_assoc N hN (digit i) (a i) sOut
  have hT3 : nmul N (∑ i ∈ Finset.range b, nmul N (digit i) (w i)) s =
      ∑ i ∈ Finset.range b, nmul N (digit i) (nmul N (w i) s) := by
    rw [nmul_sum_left]
    apply Finset.sum_congr rfl
    intro i _
    exact nmul_assoc N hN (digit i) (w i) s
  rw [hT1, hT2, hT3]
  abel

/-- C5: for every pair of secrets s, sOut and an evaluation key generated
from s to sOut (a gadget encryption with per-digit noise e_i bounded by Be),
key-switching the digits of a polynomial c = Σ_i digit_i * w_i masked under
s and then decrypting with sOut reconstructs c * s up to an additive error
bounded coefficientwise by (digit count) * N * (digit bound) * (noise
bound) — the decomposition digit count times the noise parameter times the
ring degree. -/
theorem C5_keyswitch_noise_bound (N b : Nat) (Bd Be : ℤ) (hN : 0 < N)
    (s sOut : Nat → ℤ) (w a e digit : Nat → Nat → ℤ)
    (hdig : ∀ i m, |digit i m| ≤ Bd) (herr : ∀ i m, |e i m| ≤ Be) :
    ∀ n, |(ksDecrypt N
        (keySwitchAcc N b digit (fun i => swkD0 N s sOut (w i) (a i) (e i)))
        (keySwitchAcc N b digit a) sOut -
      nmul N (∑ i ∈ Finset.range b, nmul N (digit i) (w i)) s) n| ≤
      (b : ℤ) * ((N : ℤ) * (Bd * Be)) := by
  intro n
  rw [ks_error_eq N b hN s sOut w a e digit]
  rw [Finset.sum_apply]
  calc |∑ i ∈ Finset.range b, nmul N (digit i) (e i) n|
      ≤ ∑ i ∈ Finset.range b, |nmul N (digit i) (e i) n| :=
        Finset.abs_sum_le_sum_abs _ _
    _ ≤ ∑ i ∈ Finset.range b, (N : ℤ) * (Bd * Be) :=
        Finset.sum_le_sum
          (fun i _ => nmul_bound N hN (digit i) (e i) Bd Be (hdig i) (herr i) n)
    _ = (b : ℤ) * ((N : ℤ) * (Bd * Be)) := by
        rw [Finset.sum_const, Finset.card_range, nsmul_eq_mul]

theorem C5_witness :
    |(ksDecrypt 1
        (keySwitchAcc 1 1 (fun _ _ => 1)
          (fun i => swkD0 1 (fun _ => 1) (fun _ => 1) (fun _ => 1) (fun _ => 1)
            (fun _ => 1)))
        (keySwitchAcc 1 1 (fun _ _ => 1) (fun _ _ => 1)) (fun _ => 1) -
      nmul 1 (∑ i ∈ Finset.range 1, nmul 1 (fun _ => (1 : ℤ)) (fun _ => (1 : ℤ)))
        (fun _ => 1)) 0| ≤
      ((1 : Nat) : ℤ) * (((1 : Nat) : ℤ) * ((1 : ℤ) * (1 : ℤ))) :=
  C5_keyswitch_noise_bound 1 1 1 1 (by norm_num) (fun _ => 1) (fun _ => 1)
    (fun _ _ => 1) (fun _ _ => 1) (fun _ _ => 1) (fun _ _ => 1)
    (fun _ _ => by norm_num) (fun _ _ => by norm_num) 0
